import Mathlib

/-!
Verification development for the `vermig` schema-migration runner.

The Go sources under verification are `vermig.go`, `checksum.go`, `file.go`
and `options.go`.  The development shallowly embeds them:

* pure helpers (`createChecksum`, `parsePriority`, `sortFiles`, the
  filename manipulation of `collectFiles`) are translated directly;
* the database collaborator (pgx/squirrel) is modelled as a functional
  store: a `DBState` carries the `migrations` table rows and a journal of
  every SQL text executed, a transaction is a copy of that state, commit
  replaces the ambient state with the transaction copy, rollback discards
  it, and statement execution appends to the journal and may fail
  according to an oracle `execOk`;
* the embedded filesystem (`embed.FS`) is modelled as a list of walk
  entries plus an association list of file contents;
* Go's `strings`, `strconv` and `sort` library calls are translated to
  list functions with the same observable behaviour (`sort.Slice` is
  modelled by a sort that is a permutation pairwise-ordered by the
  source's `less` closure, which is all `sort.Slice` guarantees);
* a Go runtime panic (out-of-range slice) is the `Outcome.crash` result.

Modelled from the spec (code outside this repository): the
`Masterminds/semver` dependency, following spec sections 3 and 4.2
(parsing of `MAJOR.MINOR.PATCH[-PRERELEASE]`, ordering by numeric triple
with prerelease as tiebreak, a prerelease ordering before the release),
and `crypto/sha256`, implemented here bit-for-bit as FIPS 180-4 SHA-256
over the UTF-8 bytes, rendered as lowercase hex.
-/

namespace Vermig

/-! ### Character and string helpers (models of Go `strings` functions) -/

/-- Characters accepted by Go's `unicode.IsSpace`, which is what
`strings.TrimSpace` trims from both ends. -/
def goIsSpace (c : Char) : Bool :=
  c.toNat ∈ [0x9, 0xA, 0xB, 0xC, 0xD, 0x20, 0x85, 0xA0, 0x1680,
    0x2000, 0x2001, 0x2002, 0x2003, 0x2004, 0x2005, 0x2006, 0x2007,
    0x2008, 0x2009, 0x200A, 0x2028, 0x2029, 0x202F, 0x205F, 0x3000]

/-- Model of Go `strings.TrimSpace`: drop whitespace at both ends. -/
def trimSpaceGo (s : String) : String :=
  ⟨((s.data.dropWhile goIsSpace).reverse.dropWhile goIsSpace).reverse⟩

/-- Model of Go `strings.ReplaceAll(s, "\r\n", "\n")`: one left-to-right
scan replacing every (non-overlapping) CRLF pair by LF. -/
def crlfToLfList : List Char → List Char
  | '\r' :: '\n' :: rest => '\n' :: crlfToLfList rest
  | c :: rest => c :: crlfToLfList rest
  | [] => []

/-- CRLF-to-LF conversion on strings. -/
def crlfToLf (s : String) : String := ⟨crlfToLfList s.data⟩

/-- Split a character list at every occurrence of `sep` (model of Go
`strings.Split`: the empty list yields one empty field). -/
def splitCharAux (sep : Char) : List Char → List Char → List (List Char)
  | [], acc => [acc.reverse]
  | c :: rest, acc =>
    if c = sep then acc.reverse :: splitCharAux sep rest []
    else splitCharAux sep rest (c :: acc)

/-- Split a string on a separator character, Go `strings.Split` style. -/
def splitChar (sep : Char) (s : String) : List String :=
  (splitCharAux sep s.data []).map (fun l => ⟨l⟩)

/-- Model of Go `strings.HasSuffix`. -/
def strEndsWith (s suffix : String) : Bool := suffix.data.isSuffixOf s.data

/-- Model of Go `strings.TrimSuffix`. -/
def trimSuffixStr (s suffix : String) : String :=
  if strEndsWith s suffix then ⟨s.data.take (s.data.length - suffix.data.length)⟩ else s

/-- Replace the first occurrence of `pat` (model of Go
`strings.Replace(s, pat, rep, 1)`). -/
def replaceFirstList (pat rep : List Char) : List Char → List Char
  | [] => []
  | c :: rest =>
    if pat.isPrefixOf (c :: rest) then rep ++ (c :: rest).drop pat.length
    else c :: replaceFirstList pat rep rest

/-- Replace the first occurrence of `pat` by `rep` in a string. -/
def replaceFirstStr (s pat rep : String) : String :=
  ⟨replaceFirstList pat.data rep.data s.data⟩

/-- Last slash-separated segment of a path, the model of
`fs.DirEntry.Name()` for the walked path. -/
def baseName (path : String) : String := (splitChar '/' path).getLastD path

/-- Numeric value of a non-empty all-digit character list, `none`
otherwise. -/
def digitsVal? (l : List Char) : Option Nat :=
  if l ≠ [] ∧ l.all (fun c => c.isDigit) then
    some (l.foldl (fun n c => n * 10 + (c.toNat - 48)) 0)
  else none

/-- Model of Go `strconv.Atoi`: optional sign followed by at least one
digit, the whole string consumed. -/
def atoi? (s : String) : Option Int :=
  match s.data with
  | '+' :: ds => (digitsVal? ds).map (fun n => (n : Int))
  | '-' :: ds => (digitsVal? ds).map (fun n => -(n : Int))
  | ds => (digitsVal? ds).map (fun n => (n : Int))

/-! ### SHA-256 (model of `crypto/sha256`, FIPS 180-4) -/

/-- Word modulus for 32-bit arithmetic. -/
def M32 : Nat := 4294967296

/-- Addition modulo `2^32`. -/
def add32 (a b : Nat) : Nat := (a + b) % M32

/-- Right rotation of a 32-bit word. -/
def rotr32 (n x : Nat) : Nat := (x / 2 ^ n + x % 2 ^ n * 2 ^ (32 - n)) % M32

/-- Logical right shift of a 32-bit word. -/
def shr32 (n x : Nat) : Nat := x / 2 ^ n

/-- Bitwise complement within 32 bits. -/
def not32 (x : Nat) : Nat := (M32 - 1) - x % M32

/-- The 64 SHA-256 round constants (decimal). -/
def shaK : List Nat :=
  [1116352408, 1899447441, 3049323471, 3921009573, 961987163, 1508970993,
   2453635748, 2870763221, 3624381080, 310598401, 607225278, 1426881987,
   1925078388, 2162078206, 2614888103, 3248222580, 3835390401, 4022224774,
   264347078, 604807628, 770255983, 1249150122, 1555081692, 1996064986,
   2554220882, 2821834349, 2952996808, 3210313671, 3336571891, 3584528711,
   113926993, 338241895, 666307205, 773529912, 1294757372, 1396182291,
   1695183700, 1986661051, 2177026350, 2456956037, 2730485921, 2820302411,
   3259730800, 3345764771, 3516065817, 3600352804, 4094571909, 275423344,
   430227734, 506948616, 659060556, 883997877, 958139571, 1322822218,
   1537002063, 1747873779, 1955562222, 2024104815, 2227730452, 2361852424,
   2428436474, 2756734187, 3204031479, 3329325298]

/-- The SHA-256 initial hash value (decimal). -/
def shaH0 : List Nat :=
  [1779033703, 3144134277, 1013904242, 2773480762,
   1359893119, 2600822924, 528734635, 1541459225]

/-- SHA-256 padding: append `0x80`, zeros to 56 mod 64, and the 64-bit
big-endian bit length. -/
def padMessage (msg : List Nat) : List Nat :=
  let L := msg.length
  let zeros := (119 - L % 64) % 64
  let lenBits := L * 8
  msg ++ [0x80] ++ List.replicate zeros 0 ++
    [lenBits / 2 ^ 56 % 256, lenBits / 2 ^ 48 % 256, lenBits / 2 ^ 40 % 256, lenBits / 2 ^ 32 % 256,
     lenBits / 2 ^ 24 % 256, lenBits / 2 ^ 16 % 256, lenBits / 2 ^ 8 % 256, lenBits % 256]

/-- Group four big-endian bytes into one 32-bit word. -/
def toWords : List Nat → List Nat
  | a :: b :: c :: d :: rest => (a * 2 ^ 24 + b * 2 ^ 16 + c * 2 ^ 8 + d) :: toWords rest
  | _ => []

/-- Split a byte list into 64-byte chunks (fuel keeps the recursion
structural). -/
def chunk64Aux : Nat → List Nat → List (List Nat)
  | 0, _ => []
  | _, [] => []
  | fuel + 1, l => l.take 64 :: chunk64Aux fuel (l.drop 64)

/-- Split a byte list into 64-byte chunks. -/
def chunk64 (l : List Nat) : List (List Nat) := chunk64Aux l.length l

/-- SHA-256 small sigma 0. -/
def smallSigma0 (x : Nat) : Nat := rotr32 7 x ^^^ rotr32 18 x ^^^ shr32 3 x

/-- SHA-256 small sigma 1. -/
def smallSigma1 (x : Nat) : Nat := rotr32 17 x ^^^ rotr32 19 x ^^^ shr32 10 x

/-- SHA-256 big sigma 0. -/
def bigSigma0 (x : Nat) : Nat := rotr32 2 x ^^^ rotr32 13 x ^^^ rotr32 22 x

/-- SHA-256 big sigma 1. -/
def bigSigma1 (x : Nat) : Nat := rotr32 6 x ^^^ rotr32 11 x ^^^ rotr32 25 x

/-- Extend the 16-word message schedule to 64 words. -/
def extendSchedule (w : List Nat) : Nat → List Nat
  | 0 => w
  | n + 1 =>
    let t := add32 (add32 (smallSigma1 (w.getD (w.length - 2) 0)) (w.getD (w.length - 7) 0))
      (add32 (smallSigma0 (w.getD (w.length - 15) 0)) (w.getD (w.length - 16) 0))
    extendSchedule (w ++ [t]) n

/-- The SHA-256 choice function. -/
def chBits (x y z : Nat) : Nat := Nat.xor (Nat.land x y) (Nat.land (not32 x) z)

/-- The SHA-256 majority function. -/
def majBits (x y z : Nat) : Nat :=
  Nat.xor (Nat.xor (Nat.land x y) (Nat.land x z)) (Nat.land y z)

/-- One SHA-256 compression round. -/
def compressStep (st : Nat × Nat × Nat × Nat × Nat × Nat × Nat × Nat) (kw : Nat × Nat) :
    Nat × Nat × Nat × Nat × Nat × Nat × Nat × Nat :=
  let (a, b, c, d, e, f, g, h) := st
  let (k, w) := kw
  let t1 := add32 (add32 (add32 h (bigSigma1 e)) (add32 (chBits e f g) k)) w
  let t2 := add32 (bigSigma0 a) (majBits a b c)
  (add32 t1 t2, a, b, c, add32 d t1, e, f, g)

/-- Compress one 64-byte chunk into the running hash. -/
def compressChunk (h : List Nat) (chunkWords : List Nat) : List Nat :=
  let w := extendSchedule chunkWords 48
  let init := (h.getD 0 0, h.getD 1 0, h.getD 2 0, h.getD 3 0, h.getD 4 0, h.getD 5 0, h.getD 6 0,
    h.getD 7 0)
  let fin := (shaK.zip w).foldl compressStep init
  let (a, b, c, d, e, f, g, hh) := fin
  [add32 (h.getD 0 0) a, add32 (h.getD 1 0) b, add32 (h.getD 2 0) c, add32 (h.getD 3 0) d,
   add32 (h.getD 4 0) e, add32 (h.getD 5 0) f, add32 (h.getD 6 0) g, add32 (h.getD 7 0) hh]

/-- Lowercase hexadecimal digit. -/
def hexDigit (n : Nat) : Char :=
  if n < 10 then Char.ofNat (48 + n) else Char.ofNat (87 + n)

/-- Render a 32-bit word as eight lowercase hex characters. -/
def word2hex (x : Nat) : List Char :=
  [hexDigit (x / 2 ^ 28 % 16), hexDigit (x / 2 ^ 24 % 16), hexDigit (x / 2 ^ 20 % 16),
   hexDigit (x / 2 ^ 16 % 16), hexDigit (x / 2 ^ 12 % 16), hexDigit (x / 2 ^ 8 % 16),
   hexDigit (x / 2 ^ 4 % 16), hexDigit (x % 16)]

/-- SHA-256 of a byte list, as eight 32-bit words. -/
def sha256Bytes (msg : List Nat) : List Nat :=
  (chunk64 (padMessage msg)).foldl (fun h ch => compressChunk h (toWords ch)) shaH0

/-- UTF-8 encoding of one code point. -/
def utf8EncodeCharNat (n : Nat) : List Nat :=
  if n < 0x80 then [n]
  else if n < 0x800 then [0xC0 + n / 64, 0x80 + n % 64]
  else if n < 0x10000 then [0xE0 + n / 4096, 0x80 + n / 64 % 64, 0x80 + n % 64]
  else [0xF0 + n / 262144, 0x80 + n / 4096 % 64, 0x80 + n / 64 % 64, 0x80 + n % 64]

/-- UTF-8 bytes of a string. -/
def utf8Bytes (s : String) : List Nat := s.data.flatMap (fun c => utf8EncodeCharNat c.toNat)

/-- SHA-256 of a string's UTF-8 bytes, rendered as lowercase hex
(model of Go `fmt.Sprintf("%x", sha256.Sum256(...))`). -/
def sha256hex (s : String) : String :=
  ⟨(sha256Bytes (utf8Bytes s)).flatMap word2hex⟩

/-! ### Checksum (translation of `checksum.go`) -/

/-- CRLF-to-LF conversion followed by whitespace trimming: exactly the
per-fragment normalization `createChecksum` performs. -/
def normalizeFrag (s : String) : String := trimSpaceGo (crlfToLf s)

/-- Translation of `createChecksum`: normalize every fragment, append
them all to one buffer, and hash the buffer (Go variadic arguments are
a list here). -/
def createChecksum (values : List String) : String :=
  sha256hex (values.foldl (fun buf value => buf ++ normalizeFrag value) "")

/-! ### Semantic versions (modelled from the spec, sections 3 and 4.2) -/

/-- Modelled from the spec: the `Masterminds/semver` version value —
numeric major, minor, patch and an optional (possibly empty) prerelease
label. -/
structure SemVersion where
  major : Nat
  minor : Nat
  patch : Nat
  prerelease : String
deriving Repr, DecidableEq

/-- Generic three-way comparison from a linear order. -/
def cmpOf {α : Type} [LinearOrder α] (x y : α) : Ordering :=
  if x < y then .lt else if x = y then .eq else .gt

/-- Lexicographic combination of two comparators on the same type. -/
def cmpThen {α : Type} (c1 c2 : α → α → Ordering) (x y : α) : Ordering :=
  (c1 x y).then (c2 x y)

/-- Comparator transported along a projection. -/
def cmpOn {α β : Type} (f : α → β) (c : β → β → Ordering) (x y : α) : Ordering :=
  c (f x) (f y)

/-- List comparison: element-wise, a strict prefix ordering before its
extensions. -/
def lexCmpO {α : Type} (c : α → α → Ordering) : List α → List α → Ordering
  | [], [] => .eq
  | [], _ :: _ => .lt
  | _ :: _, [] => .gt
  | x :: xs, y :: ys => (c x y).then (lexCmpO c xs ys)

/-- A prerelease identifier part: a numeric part compares numerically
and orders before any alphanumeric part (modelled from the spec's
prerelease tiebreak together with the semver specification the
dependency implements). -/
def prePartOf (l : List Char) : Nat ⊕ String :=
  match digitsVal? l with
  | some n => Sum.inl n
  | none => Sum.inr ⟨l⟩

/-- Comparison of two prerelease identifier parts. -/
def prePartCmp : Nat ⊕ String → Nat ⊕ String → Ordering
  | .inl m, .inl n => cmpOf m n
  | .inl _, .inr _ => .lt
  | .inr _, .inl _ => .gt
  | .inr s, .inr t => cmpOf s t

/-- Dot-separated parts of a prerelease label. -/
def preParts (p : String) : List (Nat ⊕ String) :=
  (splitCharAux '.' p.data []).map prePartOf

/-- Modelled from the spec: prerelease comparison — an empty prerelease
(a release version) orders after any non-empty one; two non-empty labels
compare part-wise. -/
def comparePre (p q : String) : Ordering :=
  if p = "" ∧ q = "" then .eq
  else if p = "" then .gt
  else if q = "" then .lt
  else lexCmpO prePartCmp (preParts p) (preParts q)

/-- Numeric-triple comparison of two versions (major, then minor, then
patch). -/
def tripleCmpV (v w : SemVersion) : Ordering :=
  (cmpOf v.major w.major).then ((cmpOf v.minor w.minor).then (cmpOf v.patch w.patch))

/-- Modelled from the spec: full version comparison — the numeric triple
first, the prerelease label as the only tiebreak. -/
def compareVersion (v w : SemVersion) : Ordering :=
  (tripleCmpV v w).then (comparePre v.prerelease w.prerelease)

/-- Model of `semver.Version.GreaterThan`. -/
def versionGreaterB (v w : SemVersion) : Bool := compareVersion v w == .gt

/-- Model of `semver.Version.LessThan`. -/
def versionLessB (v w : SemVersion) : Bool := compareVersion v w == .lt

/-- Model of `semver.Version.Equal`. -/
def versionEqualB (v w : SemVersion) : Bool := compareVersion v w == .eq

/-- Modelled from the spec: parse `MAJOR.MINOR.PATCH` or
`MAJOR.MINOR.PATCH-PRERELEASE`; fails when the core does not consist of
exactly three dot-separated non-negative integer fields, or when a dash
is present with an empty prerelease after it. -/
def parseVersion (s : String) : Option SemVersion :=
  let core : String := ⟨s.data.takeWhile (fun c => c ≠ '-')⟩
  let hasDash := s.data.contains '-'
  let pre : String := if hasDash then ⟨(s.data.dropWhile (fun c => c ≠ '-')).drop 1⟩ else ""
  if hasDash ∧ pre = "" then none
  else
    match splitChar '.' core with
    | [a, b, c] =>
      match digitsVal? a.data, digitsVal? b.data, digitsVal? c.data with
      | some x, some y, some z => some ⟨x, y, z, pre⟩
      | _, _, _ => none
    | _ => none

/-- Canonical rendering of a version (model of `semver.Version.String`). -/
def renderVersion (v : SemVersion) : String :=
  Nat.repr v.major ++ "." ++ Nat.repr v.minor ++ "." ++ Nat.repr v.patch ++
    (if v.prerelease = "" then "" else "-" ++ v.prerelease)

/-! ### The file catalog (translation of `file.go` and the catalog part
of `vermig.go`) -/

/-- Translation of the `File` struct (`file.go`); the parsed version is
the `SemVersion` model. -/
structure File where
  Priority : List Int
  Version : SemVersion
  Scope : String
  Name : String
  UpPath : String
  DownPath : String
deriving Repr, DecidableEq

/-- The embedded filesystem collaborator: walk entries in `fs.WalkDir`
order, each a path paired with its directory flag, plus an association
list from path to file content (a missing path is a read error). -/
structure GoFS where
  entries : List (String × Bool)
  contents : List (String × String)

/-- Model of `embed.FS.ReadFile`. -/
def GoFS.read (fs : GoFS) (p : String) : Option String :=
  (fs.contents.find? (fun e => e.1 == p)).map (fun e => e.2)

/-- Translation of `parsePriority`: split the path on slashes; every
segment with an underscore contributes its leading token when that token
parses as an integer. -/
def parsePriority (path : String) : List Int :=
  (splitChar '/' path).foldl
    (fun p part =>
      if part.data.contains '_' then
        match atoi? ⟨part.data.takeWhile (fun c => c ≠ '_')⟩ with
        | some v => p ++ [v]
        | none => p
      else p)
    []

/-- The version token `name[:strings.Index(name, "_")]`; `none` models
the Go slice-bounds panic when the name holds no underscore
(`strings.Index` returns `-1`). -/
def versionToken (name : String) : Option String :=
  if name.data.contains '_' then some ⟨name.data.takeWhile (fun c => c ≠ '_')⟩ else none

/-- The first position where the two priority sequences differ, scanning
only their common prefix: the loop inside the `sort.Slice` comparator of
`sortFiles`. -/
def firstDiff : List Int → List Int → Option (Int × Int)
  | x :: xs, y :: ys => if x ≠ y then some (x, y) else firstDiff xs ys
  | _, _ => none

/-- Translation of the `sort.Slice` comparator of `sortFiles`: priority
sequences element-wise on the common prefix, then by length, then by
version unless equal, then by name. -/
def fileLess (a b : File) : Bool :=
  match firstDiff a.Priority b.Priority with
  | some (x, y) => decide (x < y)
  | none =>
    if a.Priority.length ≠ b.Priority.length then decide (a.Priority.length < b.Priority.length)
    else if ¬ versionEqualB a.Version b.Version then versionLessB a.Version b.Version
    else decide (a.Name < b.Name)

/-- Model of `sortFiles`: `sort.Slice` guarantees a permutation that is
pairwise ordered by the comparator, which an insertion sort by the same
comparator delivers. -/
def sortFiles (l : List File) : List File :=
  List.insertionSort (fun a b => fileLess b a = false) l

/-- Errors the engine can surface; constructors follow the wrapped error
messages of `vermig.go`. -/
inductive MigErr where
  | parseTarget
  | parseStored
  | parseCollect
  | noMigrations
  | missingDown
  | readUp
  | corrupt (name : String)
  | execFail (sql : String)
deriving Repr, DecidableEq

/-- Result of an engine step: success, a returned error, or a Go runtime
panic (`crash`). -/
inductive Outcome (α : Type) where
  | ok (a : α)
  | err (e : MigErr)
  | crash
deriving Repr, DecidableEq

/-- Whether an outcome is a returned error. -/
def Outcome.isErr {α : Type} : Outcome α → Bool
  | .err _ => true
  | _ => false

/-- Translation of the `fs.WalkDir` callback of `collectFiles`,
accumulating catalog entries in walk order; the version-token slice
panics (`crash`) on a name without an underscore, and an unparsable
version aborts with an error. -/
def collectFilesAux : List (String × Bool) → List File → Outcome (List File)
  | [], acc => .ok acc
  | (path, isDir) :: rest, acc =>
    if path = "" ∨ isDir then collectFilesAux rest acc
    else
      let name := baseName path
      if strEndsWith name "_down.sql" then collectFilesAux rest acc
      else
        let downPath := replaceFirstStr path "_up.sql" "_down.sql"
        match versionToken name with
        | none => .crash
        | some rawVersion =>
          match parseVersion rawVersion with
          | none => .err .parseCollect
          | some pv =>
            let scope := trimSuffixStr path ("/" ++ name)
            collectFilesAux rest
              (acc ++ [{ Priority := parsePriority path, Version := pv, Scope := scope,
                         Name := name, UpPath := path, DownPath := downPath }])

/-- Translation of `collectFiles`: walk the tree, then sort. -/
def collectFiles (fs : GoFS) : Outcome (List File) :=
  match collectFilesAux fs.entries [] with
  | .ok fl => .ok (sortFiles fl)
  | .err e => .err e
  | .crash => .crash

/-! ### The record store and the engine (translation of the rest of
`vermig.go`) -/

/-- Translation of the `Migration` record (one row of the `migrations`
table). -/
structure Migration where
  Id : String
  Name : String
  Version : String
  Major : Nat
  Minor : Nat
  Patch : Nat
  Prerelease : String
  Scope : String
  Up : String
  Down : String
  Checksum : String
deriving Repr, DecidableEq

/-- Observable database state: the `migrations` table rows in insertion
order, plus the journal of every SQL text executed by committed
transactions, in execution order. -/
structure DBState where
  records : List Migration
  journal : List String
deriving Repr, DecidableEq

/-- The engine together with its collaborators: the embedded tree, the
downgrade flag, and the oracle deciding which SQL texts execute without
error. -/
structure Model where
  gofs : GoFS
  allowDowngrade : Bool
  execOk : String → Bool

/-- Model of `migrationExists`: `SELECT true FROM migrations WHERE name =
$1 AND scope = $2` scanned into a boolean (`ErrNoRows` becomes `false`). -/
def migrationExists (recs : List Migration) (name scope : String) : Bool :=
  recs.any (fun r => r.Name == name && r.Scope == scope)

/-- Row-value comparison `(major, minor, patch) > ($1, $2, $3)` of the
`findHigherVersionMigrations` query. -/
def tripleGTb (r : Migration) (v : SemVersion) : Bool :=
  ((cmpOf r.Major v.major).then ((cmpOf r.Minor v.minor).then (cmpOf r.Patch v.patch))) == .gt

/-- Comparator behind `ORDER BY major DESC, minor DESC, patch DESC`. -/
def rowCmp (a b : Migration) : Ordering :=
  (cmpOf a.Major b.Major).then ((cmpOf a.Minor b.Minor).then (cmpOf a.Patch b.Patch))

/-- Model of the SQL ordering: rows sorted triple-descending. -/
def sortRowsDesc (l : List Migration) : List Migration :=
  List.insertionSort (fun a b => rowCmp b a ≠ .gt) l

/-- The Go re-filter loop of `findHigherVersionMigrations`: parse every
returned row's version string and keep the rows strictly greater than
the target under full semver comparison. -/
def refilterHigher (v : SemVersion) : List Migration → Outcome (List Migration)
  | [] => .ok []
  | r :: rest =>
    match parseVersion r.Version with
    | none => .err .parseStored
    | some rv =>
      match refilterHigher v rest with
      | .ok tl => .ok (if versionGreaterB rv v then r :: tl else tl)
      | .err e => .err e
      | .crash => .crash

/-- Translation of `findHigherVersionMigrations`: the SQL filter and
ordering, the early return on an empty row set, then the re-filter. -/
def findHigher (recs : List Migration) (v : SemVersion) : Outcome (List Migration) :=
  let result := sortRowsDesc (recs.filter (fun r => tripleGTb r v))
  if result.isEmpty then .ok []
  else refilterHigher v result

/-- The checksum index `verifyIntegrity` builds: a Go map keyed by
`scope + "/" + name`, later rows overwriting earlier ones. -/
def checksumMapLookup (recs : List Migration) (key : String) : Option String :=
  recs.foldl (fun acc r => if r.Scope ++ "/" ++ r.Name == key then some r.Checksum else acc) none

/-- The per-file loop of `verifyIntegrity`: read the down-script (missing
is fatal only with downgrade enabled), read the up-script (missing is
fatal), recompute the checksum and compare it with the stored one when
the file has a stored counterpart. -/
def verifyFiles (fs : GoFS) (allowDowngrade : Bool) (recs : List Migration) :
    List File → Outcome Unit
  | [] => .ok ()
  | f :: rest =>
    let downRead := fs.read f.DownPath
    let queryDown := downRead.getD ""
    if allowDowngrade ∧ downRead = none then .err .missingDown
    else
      match fs.read f.UpPath with
      | none => .err .readUp
      | some queryUp =>
        let checksum := createChecksum [queryUp, queryDown]
        match checksumMapLookup recs (f.Scope ++ "/" ++ f.Name) with
        | none => verifyFiles fs allowDowngrade recs rest
        | some stored =>
          if checksum ≠ stored then .err (.corrupt f.Name)
          else verifyFiles fs allowDowngrade recs rest

/-- Translation of `verifyIntegrity`: load all records, return
immediately when there are none, otherwise check every catalog file. -/
def verifyIntegrity (fs : GoFS) (allowDowngrade : Bool) (recs : List Migration)
    (files : List File) : Outcome Unit :=
  if recs.isEmpty then .ok () else verifyFiles fs allowDowngrade recs files

/-- The bookkeeping row `migrateUp` inserts for a file: the file's
identity and version components, the scripts as read (a missing
down-script stored as the empty string), and the computed checksum. The
`id` column is generated by the database and modelled as empty. -/
def recordOf (fs : GoFS) (f : File) : Migration :=
  let queryUp := (fs.read f.UpPath).getD ""
  let queryDown := (fs.read f.DownPath).getD ""
  { Id := "", Name := f.Name, Version := renderVersion f.Version, Major := f.Version.major,
    Minor := f.Version.minor, Patch := f.Version.patch, Prerelease := f.Version.prerelease,
    Scope := f.Scope, Up := queryUp, Down := queryDown,
    Checksum := createChecksum [queryUp, queryDown] }

/-- Translation of `migrateUp`: iterate the catalog; skip files above the
target and files whose (name, scope) already has a record in the
transaction's view; otherwise read the up-script (hard failure), read
the down-script (soft failure), execute the up-script and insert the
bookkeeping row. -/
def migrateUp (fs : GoFS) (execOk : String → Bool) (target : SemVersion) :
    List File → DBState → Outcome DBState
  | [], tx => .ok tx
  | f :: rest, tx =>
    if versionGreaterB f.Version target then migrateUp fs execOk target rest tx
    else if migrationExists tx.records f.Name f.Scope then migrateUp fs execOk target rest tx
    else
      match fs.read f.UpPath with
      | none => .err .readUp
      | some queryUp =>
        let queryDown := (fs.read f.DownPath).getD ""
        if execOk queryUp = false then .err (.execFail queryUp)
        else
          migrateUp fs execOk target rest
            { records := tx.records ++
                [{ Id := "", Name := f.Name, Version := renderVersion f.Version,
                   Major := f.Version.major, Minor := f.Version.minor,
                   Patch := f.Version.patch, Prerelease := f.Version.prerelease,
                   Scope := f.Scope, Up := queryUp, Down := queryDown,
                   Checksum := createChecksum [queryUp, queryDown] }],
              journal := tx.journal ++ [queryUp] }

/-- The loop of `migrateDown`: execute every stored down-script in the
given order, collecting the identifiers of the reverted rows. -/
def migrateDownAux (execOk : String → Bool) :
    List Migration → List String → List String → Outcome (List String × List String)
  | [], jAdd, ids => .ok (jAdd, ids)
  | g :: rest, jAdd, ids =>
    if execOk g.Down = false then .err (.execFail g.Down)
    else migrateDownAux execOk rest (jAdd ++ [g.Down]) (ids ++ [g.Id])

/-- Translation of `migrateDown`: run every down-script, then delete all
collected identifiers in one call. -/
def migrateDown (execOk : String → Bool) (migs : List Migration) (tx : DBState) :
    Outcome DBState :=
  match migrateDownAux execOk migs [] [] with
  | .ok (jAdd, ids) =>
    .ok { records := tx.records.filter (fun r => (ids.contains r.Id) = false),
          journal := tx.journal ++ jAdd }
  | .err e => .err e
  | .crash => .crash

/-- Translation of `Migrate`: parse the target, query the higher
migrations on the ambient connection, begin a transaction (copy the
state), rebuild the catalog, verify integrity, then either revert
(downgrade enabled and higher records exist), warn and do nothing
(downgrade disabled but higher records exist), or apply forward (no
higher records); finally commit. The returned state is the committed
one: every error path rolls the transaction back, leaving the input
state. -/
def runMigrate (m : Model) (version : String) (db : DBState) : Outcome Unit × DBState :=
  match parseVersion version with
  | none => (.err .parseTarget, db)
  | some pv =>
    match findHigher db.records pv with
    | .err e => (.err e, db)
    | .crash => (.crash, db)
    | .ok higher =>
      match collectFiles m.gofs with
      | .err e => (.err e, db)
      | .crash => (.crash, db)
      | .ok files =>
        match verifyIntegrity m.gofs m.allowDowngrade db.records files with
        | .err e => (.err e, db)
        | .crash => (.crash, db)
        | .ok _ =>
          let step : Outcome DBState :=
            if m.allowDowngrade ∧ higher ≠ [] then migrateDown m.execOk higher db
            else if higher = [] then migrateUp m.gofs m.execOk pv files db
            else .ok db
          match step with
          | .err e => (.err e, db)
          | .crash => (.crash, db)
          | .ok tx => (.ok (), tx)

/-- The `fs.WalkDir` callback of `MigrateLatest`: collect the parsed
version of every non-directory, non-down file, with the same
slice-bounds panic on a name without an underscore. -/
def latestWalkAux : List (String × Bool) → List SemVersion → Outcome (List SemVersion)
  | [], acc => .ok acc
  | (path, isDir) :: rest, acc =>
    if path = "" ∨ isDir then latestWalkAux rest acc
    else
      let name := baseName path
      if strEndsWith name "_down.sql" then latestWalkAux rest acc
      else
        match versionToken name with
        | none => .crash
        | some rawVersion =>
          match parseVersion rawVersion with
          | none => .err .parseCollect
          | some pv => latestWalkAux rest (acc ++ [pv])

/-- Ascending semver sort used on the candidate list of `MigrateLatest`. -/
def sortVersions (l : List SemVersion) : List SemVersion :=
  List.insertionSort (fun a b => compareVersion a b ≠ .gt) l

/-- Translation of `MigrateLatest`: walk the tree for candidate versions,
fail when none exist, then migrate to the greatest candidate. -/
def migrateLatest (m : Model) (db : DBState) : Outcome Unit × DBState :=
  match latestWalkAux m.gofs.entries [] with
  | .err e => (.err e, db)
  | .crash => (.crash, db)
  | .ok candidates =>
    if candidates.isEmpty then (.err .noMigrations, db)
    else
      runMigrate m (renderVersion ((sortVersions candidates).getLastD ⟨0, 0, 0, ""⟩)) db

/-! ### Specification-side definitions used by refinement statements -/

/-- Specification of forward application as a pure plan (spec section
4.5, step 7b): walk the catalog in order; a file above the target or one
whose (name, scope) is already recorded is skipped; every other file is
selected and its bookkeeping row joins the applied set consulted by the
later exists-checks. -/
def upPlan (fs : GoFS) (target : SemVersion) : List File → List Migration → List File
  | [], _ => []
  | f :: rest, recs =>
    if versionGreaterB f.Version target then upPlan fs target rest recs
    else if migrationExists recs f.Name f.Scope then upPlan fs target rest recs
    else f :: upPlan fs target rest (recs ++ [recordOf fs f])

/-- Specification of the catalog's composite order (spec section 4.3):
priority sequences element-wise ascending with a shorter sequence before
a longer one sharing its prefix, then version ascending, then name, as
a non-strict relation between consecutive files. -/
def fileCompositeLe (a b : File) : Prop :=
  List.Lex (fun x y : Int => x < y) a.Priority b.Priority ∨
    (a.Priority = b.Priority ∧
      (versionLessB a.Version b.Version = true ∨
        (versionEqualB a.Version b.Version = true ∧ a.Name ≤ b.Name)))

/-- Whether a stored row's version string parses and agrees with its
numeric triple columns — true for every row this program inserts. -/
def versionConsistent (r : Migration) : Bool :=
  match parseVersion r.Version with
  | some rv => rv.major == r.Major && rv.minor == r.Minor && rv.patch == r.Patch
  | none => false

/-- Condition of the malformed-version claim: the dot-separated fields
before any prerelease dash number fewer than three, or one of them is
not a non-negative integer. -/
def malformedVersion (s : String) : Bool :=
  let fields := splitChar '.' ⟨s.data.takeWhile (fun c => c ≠ '-')⟩
  decide (fields.length < 3) || fields.any (fun f => (digitsVal? f.data).isSome = false)

/-- Three-way form of the `sortFiles` comparator, used to reason about
the order it induces: priority sequences lexicographically, then
version, then name. -/
def fileCmp (a b : File) : Ordering :=
  (lexCmpO cmpOf a.Priority b.Priority).then
    ((compareVersion a.Version b.Version).then (cmpOf a.Name b.Name))

/-- A walk entry the catalog callback passes without error: skipped
(root, directory or down-script) or carrying a parseable version token. -/
def walkEntryCleanB (e : String × Bool) : Bool :=
  e.1 == "" || e.2 ||
    strEndsWith (baseName e.1) "_down.sql" ||
    (match versionToken (baseName e.1) with
     | some raw => (parseVersion raw).isSome
     | none => false)

/-! ### Concrete fixtures used by witnesses and counterexamples -/

/-- An empty database state. -/
def db0W : DBState := { records := [], journal := [] }

/-- The oracle under which every SQL text executes successfully. -/
def execAllW : String → Bool := fun _ => true

/-- The oracle under which the statement `CREATE A` fails. -/
def execFailW : String → Bool := fun s => !(s == "CREATE A")

/-- A stored record at version 2.0.0 matching no catalog file. -/
def ghostW : Migration :=
  { Id := "g", Name := "ghost", Version := "2.0.0", Major := 2, Minor := 0, Patch := 0,
    Prerelease := "", Scope := "gs", Up := "", Down := "DROP G", Checksum := "c" }

/-- A database state holding only the ghost record. -/
def dbGhostW : DBState := { records := [ghostW], journal := [] }

/-- A tree with one up-script and no down-script. -/
def fsOneW : GoFS :=
  { entries := [("1.0.0_a_up.sql", false)],
    contents := [("1.0.0_a_up.sql", "CREATE A")] }

/-- The catalog entry `collectFiles` derives from `fsOneW` (a root-level
file: its scope is the file name itself, `strings.TrimSuffix` removing
nothing). -/
def fAW : File :=
  { Priority := [], Version := ⟨1, 0, 0, ""⟩, Scope := "1.0.0_a_up.sql",
    Name := "1.0.0_a_up.sql", UpPath := "1.0.0_a_up.sql", DownPath := "1.0.0_a_down.sql" }

/-- A tree with one up/down script pair. -/
def fsPairW : GoFS :=
  { entries := [(".", true), ("1.0.0_a_up.sql", false), ("1.0.0_a_down.sql", false)],
    contents := [("1.0.0_a_up.sql", "CREATE A"), ("1.0.0_a_down.sql", "DROP A")] }

/-- A tree with a 1.0.0 and a 2.0.0 migration. -/
def fsTwoW : GoFS :=
  { entries := [("1.0.0_a_up.sql", false), ("2.0.0_b_up.sql", false)],
    contents := [("1.0.0_a_up.sql", "CREATE A"), ("2.0.0_b_up.sql", "CREATE B")] }

/-- The 2.0.0 catalog entry of `fsTwoW`. -/
def fBW : File :=
  { Priority := [], Version := ⟨2, 0, 0, ""⟩, Scope := "2.0.0_b_up.sql",
    Name := "2.0.0_b_up.sql", UpPath := "2.0.0_b_up.sql", DownPath := "2.0.0_b_down.sql" }

/-- The transaction state after applying the 1.0.0 file of `fsTwoW` to
an empty store. -/
def dbAfterC1W : DBState := { records := [recordOf fsTwoW fAW], journal := ["CREATE A"] }

/-- A tree whose only file has an unparsable version token. -/
def fsBadVerW : GoFS := { entries := [("badver_up.sql", false)], contents := [] }

/-- A tree where a version-parse failure precedes a file without any
underscore in its name. -/
def fsC10W : GoFS :=
  { entries := [("bad_up.sql", false), ("plain.sql", false)], contents := [] }

/-- A tree where a clean entry precedes a file without any underscore. -/
def fsC10W2 : GoFS :=
  { entries := [("1.0.0_ok_up.sql", false), ("plain.sql", false)],
    contents := [("1.0.0_ok_up.sql", "X")] }

/-- A tree with priority directories, for the catalog-order witness. -/
def fsC6W : GoFS :=
  { entries := [("2_b/1.0.0_x_up.sql", false), ("1_a/2.0.0_y_up.sql", false),
      ("1_a/1.0.0_z_up.sql", false)],
    contents := [] }

/-- Downgrade-enabled engine over the tree missing its down-script. -/
def mMissingDownW : Model := { gofs := fsOneW, allowDowngrade := true, execOk := execAllW }

/-- Downgrade-disabled engine over the tree missing its down-script. -/
def mNoDowngradeW : Model := { gofs := fsOneW, allowDowngrade := false, execOk := execAllW }

/-- Downgrade-disabled engine over the tree with the unparsable version. -/
def mBadVerW : Model := { gofs := fsBadVerW, allowDowngrade := false, execOk := execAllW }

/-- Downgrade-enabled engine over the up/down pair tree. -/
def mPairDowngradeW : Model := { gofs := fsPairW, allowDowngrade := true, execOk := execAllW }

/-- Downgrade-disabled engine over the up/down pair tree. -/
def mPairW : Model := { gofs := fsPairW, allowDowngrade := false, execOk := execAllW }

/-- Engine whose database rejects the statement `CREATE A`. -/
def mExecFailW : Model := { gofs := fsPairW, allowDowngrade := false, execOk := execFailW }

/-- Engine over the tree that panics during the walk. -/
def mC10XW : Model := { gofs := fsC10W, allowDowngrade := false, execOk := execAllW }

/-- Engine over the tree whose clean entry precedes the panicking one. -/
def mC10WW : Model := { gofs := fsC10W2, allowDowngrade := false, execOk := execAllW }

/-- The state after the downgrade-path run of the idempotence
counterexample: the ghost record reverted, nothing applied. -/
def dbMidC5X : DBState := { records := [], journal := ["DROP G"] }

/-- Stored record above target 1.0.0 (triple (2,0,0)). -/
def recC4aW : Migration :=
  { Id := "a", Name := "a", Version := "2.0.0", Major := 2, Minor := 0, Patch := 0,
    Prerelease := "", Scope := "s", Up := "", Down := "", Checksum := "c1" }

/-- Stored record below target 1.0.0 (triple (0,9,0)). -/
def recC4bW : Migration :=
  { Id := "b", Name := "b", Version := "0.9.0", Major := 0, Minor := 9, Patch := 0,
    Prerelease := "", Scope := "s", Up := "", Down := "", Checksum := "c2" }

/-- Stored record above target 1.0.0 (triple (3,1,0)). -/
def recC4cW : Migration :=
  { Id := "c", Name := "c", Version := "3.1.0", Major := 3, Minor := 1, Patch := 0,
    Prerelease := "", Scope := "s", Up := "", Down := "", Checksum := "c3" }

/-- A stored release record at triple (1,0,0). -/
def rec100W : Migration :=
  { Id := "r", Name := "n", Version := "1.0.0", Major := 1, Minor := 0, Patch := 0,
    Prerelease := "", Scope := "s", Up := "", Down := "", Checksum := "c" }

/-! ## Lemmas -/

/-! ### Laws of the three-way comparators -/

/-- Decomposition of a lexicographic combination that is not `gt`. -/
theorem then_ne_gt {o p : Ordering} : o.then p ≠ .gt ↔ o = .lt ∨ (o = .eq ∧ p ≠ .gt) := by
  cases o <;> simp [Ordering.then]

/-- Positional form of `Batteries.OrientedCmp.symm`. -/
theorem oc_symm {α : Type} (c : α → α → Ordering) [Batteries.OrientedCmp c] (x y : α) :
    (c x y).swap = c y x :=
  Batteries.OrientedCmp.symm x y

/-- Positional form of `Batteries.OrientedCmp.cmp_refl`. -/
theorem oc_refl {α : Type} (c : α → α → Ordering) [Batteries.OrientedCmp c] (x : α) :
    c x x = .eq :=
  Batteries.OrientedCmp.cmp_refl

/-- Positional form of `Batteries.TransCmp.le_trans`. -/
theorem tc_le_trans {α : Type} (c : α → α → Ordering) [Batteries.TransCmp c] {x y z : α}
    (h1 : c x y ≠ .gt) (h2 : c y z ≠ .gt) : c x z ≠ .gt :=
  Batteries.TransCmp.le_trans h1 h2

section CmpOfLaws

variable {α : Type} [LinearOrder α]

theorem cmpOf_eq_lt {x y : α} : cmpOf x y = .lt ↔ x < y := by
  unfold cmpOf
  rcases lt_trichotomy x y with h | h | h
  · simp [h]
  · simp [h, lt_irrefl]
  · simp [not_lt_of_gt h, ne_of_gt h]

theorem cmpOf_eq_eq {x y : α} : cmpOf x y = .eq ↔ x = y := by
  unfold cmpOf
  rcases lt_trichotomy x y with h | h | h
  · simp [h, ne_of_lt h]
  · simp [h, lt_irrefl]
  · simp [not_lt_of_gt h, ne_of_gt h]

theorem cmpOf_eq_gt {x y : α} : cmpOf x y = .gt ↔ y < x := by
  unfold cmpOf
  rcases lt_trichotomy x y with h | h | h
  · simp [h, asymm h, ne_of_lt h]
  · simp [h, lt_irrefl]
  · simp [not_lt_of_gt h, ne_of_gt h, h]

theorem cmpOf_ne_gt {x y : α} : cmpOf x y ≠ .gt ↔ x ≤ y := by
  rw [Ne, cmpOf_eq_gt, not_lt]

theorem cmpOf_swap (x y : α) : (cmpOf x y).swap = cmpOf y x := by
  rcases h : cmpOf x y with _ | _ | _
  · rw [cmpOf_eq_lt] at h
    simp [Ordering.swap, cmpOf_eq_gt.2 h]
  · rw [cmpOf_eq_eq] at h
    simp [Ordering.swap, cmpOf_eq_eq.2 h.symm]
  · rw [cmpOf_eq_gt] at h
    simp [Ordering.swap, cmpOf_eq_lt.2 h]

instance instTransCmpOf : Batteries.TransCmp (cmpOf : α → α → Ordering) where
  symm := cmpOf_swap
  le_trans h1 h2 := cmpOf_ne_gt.2 (le_trans (cmpOf_ne_gt.1 h1) (cmpOf_ne_gt.1 h2))

end CmpOfLaws

section CmpCombinators

variable {α β : Type}

instance instTransCmpThen (c1 c2 : α → α → Ordering)
    [Batteries.TransCmp c1] [Batteries.TransCmp c2] : Batteries.TransCmp (cmpThen c1 c2) where
  symm x y := by
    unfold cmpThen
    rw [Ordering.swap_then, oc_symm c1, oc_symm c2]
  le_trans {x y z} h1 h2 := by
    unfold cmpThen at h1 h2 ⊢
    rcases then_ne_gt.1 h1 with ha | ⟨ha, ha2⟩
    · rcases then_ne_gt.1 h2 with hb | ⟨hb, hb2⟩
      · exact then_ne_gt.2 (Or.inl (Batteries.TransCmp.lt_trans ha hb))
      · refine then_ne_gt.2 (Or.inl ?_)
        rw [← Batteries.TransCmp.cmp_congr_right hb]
        exact ha
    · rcases then_ne_gt.1 h2 with hb | ⟨hb, hb2⟩
      · refine then_ne_gt.2 (Or.inl ?_)
        rw [Batteries.TransCmp.cmp_congr_left ha]
        exact hb
      · refine then_ne_gt.2 (Or.inr ⟨?_, Batteries.TransCmp.le_trans ha2 hb2⟩)
        rw [Batteries.TransCmp.cmp_congr_left ha]
        exact hb

instance instTransCmpOn (f : α → β) (c : β → β → Ordering) [Batteries.TransCmp c] :
    Batteries.TransCmp (cmpOn f c) where
  symm x y := Batteries.OrientedCmp.symm (f x) (f y)
  le_trans h1 h2 := tc_le_trans c h1 h2

theorem lexCmpO_swap (c : α → α → Ordering) [Batteries.TransCmp c] :
    ∀ xs ys : List α, (lexCmpO c xs ys).swap = lexCmpO c ys xs := by
  intro xs
  induction xs with
  | nil => intro ys; cases ys <;> rfl
  | cons x xt ih =>
    intro ys
    cases ys with
    | nil => rfl
    | cons y yt =>
      show ((c x y).then (lexCmpO c xt yt)).swap = (c y x).then (lexCmpO c yt xt)
      rw [Ordering.swap_then, oc_symm c, ih]

theorem lexCmpO_le_trans (c : α → α → Ordering) [Batteries.TransCmp c] :
    ∀ xs ys zs : List α, lexCmpO c xs ys ≠ .gt → lexCmpO c ys zs ≠ .gt →
      lexCmpO c xs zs ≠ .gt := by
  intro xs
  induction xs with
  | nil =>
    intro ys zs _ _
    cases zs <;> simp [lexCmpO]
  | cons x xt ih =>
    intro ys zs h1 h2
    cases ys with
    | nil => simp [lexCmpO] at h1
    | cons y yt =>
      cases zs with
      | nil => simp [lexCmpO] at h2
      | cons z zt =>
        show (c x z).then (lexCmpO c xt zt) ≠ .gt
        have h1' : (c x y).then (lexCmpO c xt yt) ≠ .gt := h1
        have h2' : (c y z).then (lexCmpO c yt zt) ≠ .gt := h2
        rcases then_ne_gt.1 h1' with ha | ⟨ha, ha2⟩
        · rcases then_ne_gt.1 h2' with hb | ⟨hb, hb2⟩
          · exact then_ne_gt.2 (Or.inl (Batteries.TransCmp.lt_trans ha hb))
          · refine then_ne_gt.2 (Or.inl ?_)
            rw [← Batteries.TransCmp.cmp_congr_right hb]
            exact ha
        · rcases then_ne_gt.1 h2' with hb | ⟨hb, hb2⟩
          · refine then_ne_gt.2 (Or.inl ?_)
            rw [Batteries.TransCmp.cmp_congr_left ha]
            exact hb
          · refine then_ne_gt.2 (Or.inr ⟨?_, ih yt zt ha2 hb2⟩)
            rw [Batteries.TransCmp.cmp_congr_left ha]
            exact hb

instance instTransCmpLex (c : α → α → Ordering) [Batteries.TransCmp c] :
    Batteries.TransCmp (lexCmpO c) where
  symm := lexCmpO_swap c
  le_trans {x y z} := lexCmpO_le_trans c x y z

end CmpCombinators

set_option linter.unnecessarySeqFocus false in
instance instTransCmpPrePart : Batteries.TransCmp prePartCmp where
  symm x y := by
    rcases x with m | s <;> rcases y with n | t
    · exact cmpOf_swap m n
    · rfl
    · rfl
    · exact cmpOf_swap s t
  le_trans {x y z} h1 h2 := by
    rcases x with m | s <;> rcases y with n | t <;> rcases z with p | u <;>
      simp_all [prePartCmp] <;>
      exact tc_le_trans cmpOf h1 h2

instance instTransCmpPre : Batteries.TransCmp comparePre where
  symm p q := by
    by_cases hp : p = "" <;> by_cases hq : q = ""
    · subst hp; subst hq; rfl
    · simp [comparePre, hp, hq, Ordering.swap]
    · simp [comparePre, hp, hq, Ordering.swap]
    · unfold comparePre
      rw [if_neg (fun h => hp h.1), if_neg hp, if_neg hq,
        if_neg (fun h => hq h.1), if_neg hq, if_neg hp]
      exact lexCmpO_swap prePartCmp (preParts p) (preParts q)
  le_trans {p q r} h1 h2 := by
    by_cases hp : p = "" <;> by_cases hq : q = "" <;> by_cases hr : r = "" <;>
      simp_all [comparePre] <;>
      exact lexCmpO_le_trans prePartCmp _ _ _ h1 h2

instance instTransCmpTriple : Batteries.TransCmp tripleCmpV :=
  inferInstanceAs (Batteries.TransCmp (cmpThen (cmpOn SemVersion.major cmpOf)
    (cmpThen (cmpOn SemVersion.minor cmpOf) (cmpOn SemVersion.patch cmpOf))))

instance instTransCmpVersion : Batteries.TransCmp compareVersion :=
  inferInstanceAs (Batteries.TransCmp (cmpThen tripleCmpV
    (cmpOn SemVersion.prerelease comparePre)))

instance instTransCmpRow : Batteries.TransCmp rowCmp :=
  inferInstanceAs (Batteries.TransCmp (cmpThen (cmpOn Migration.Major cmpOf)
    (cmpThen (cmpOn Migration.Minor cmpOf) (cmpOn Migration.Patch cmpOf))))

instance instTransCmpFile : Batteries.TransCmp fileCmp :=
  inferInstanceAs (Batteries.TransCmp (cmpThen (cmpOn File.Priority (lexCmpO cmpOf))
    (cmpThen (cmpOn File.Version compareVersion) (cmpOn File.Name cmpOf))))

/-! ### The `sortFiles` comparator agrees with `fileCmp` -/

theorem cmpOf_nat_succ (n m : Nat) : cmpOf (n + 1) (m + 1) = cmpOf n m := by
  simp [cmpOf, Nat.add_lt_add_iff_right]

/-- The priority part of the comparator loop computes the lexicographic
list comparison: the first differing common-prefix element decides,
otherwise the lengths do. -/
theorem lexCmpO_cmpOf_spec : ∀ xs ys : List Int,
    lexCmpO cmpOf xs ys =
      (match firstDiff xs ys with
       | some (x, y) => cmpOf x y
       | none => cmpOf xs.length ys.length) := by
  intro xs
  induction xs with
  | nil =>
    intro ys
    cases ys with
    | nil => rfl
    | cons y yt =>
      show Ordering.lt = cmpOf 0 (yt.length + 1)
      rw [eq_comm, cmpOf_eq_lt]
      exact Nat.succ_pos _
  | cons x xt ih =>
    intro ys
    cases ys with
    | nil =>
      show Ordering.gt = cmpOf (xt.length + 1) 0
      rw [eq_comm, cmpOf_eq_gt]
      exact Nat.succ_pos _
    | cons y yt =>
      show (cmpOf x y).then (lexCmpO cmpOf xt yt) = _
      by_cases hxy : x = y
      · subst hxy
        rw [oc_refl cmpOf]
        show lexCmpO cmpOf xt yt = _
        rw [ih yt]
        have hfd : firstDiff (x :: xt) (x :: yt) = firstDiff xt yt := by
          show (if x ≠ x then some (x, x) else firstDiff xt yt) = firstDiff xt yt
          exact if_neg (fun h => h rfl)
        rw [hfd]
        cases hd : firstDiff xt yt with
        | none => simp [List.length_cons, cmpOf_nat_succ]
        | some p => simp
      · rcases h : cmpOf x y with _ | _ | _
        · simp [firstDiff, hxy, Ordering.then, h]
        · exact absurd (cmpOf_eq_eq.1 h) hxy
        · simp [firstDiff, hxy, Ordering.then, h]

theorem lexCmpO_eq_iff : ∀ xs ys : List Int, lexCmpO cmpOf xs ys = .eq ↔ xs = ys := by
  intro xs
  induction xs with
  | nil => intro ys; cases ys <;> simp [lexCmpO]
  | cons x xt ih =>
    intro ys
    cases ys with
    | nil => simp [lexCmpO]
    | cons y yt =>
      show (cmpOf x y).then (lexCmpO cmpOf xt yt) = .eq ↔ _
      rw [Ordering.then_eq_eq, cmpOf_eq_eq, ih yt, List.cons_eq_cons]

theorem lexCmpO_lt_iff_lex : ∀ xs ys : List Int,
    lexCmpO cmpOf xs ys = .lt ↔ List.Lex (fun x y : Int => x < y) xs ys := by
  intro xs
  induction xs with
  | nil =>
    intro ys
    cases ys with
    | nil => simp [lexCmpO]
    | cons y yt => simp [lexCmpO, List.Lex.nil]
  | cons x xt ih =>
    intro ys
    cases ys with
    | nil => simp [lexCmpO]
    | cons y yt =>
      show (cmpOf x y).then (lexCmpO cmpOf xt yt) = .lt ↔ _
      rw [Ordering.then_eq_lt, cmpOf_eq_lt, cmpOf_eq_eq, ih yt]
      constructor
      · rintro (h | ⟨rfl, h⟩)
        · exact List.Lex.rel h
        · exact List.Lex.cons h
      · intro h
        cases h with
        | cons h => exact Or.inr ⟨rfl, h⟩
        | rel h => exact Or.inl h

theorem versionLessB_iff {v w : SemVersion} :
    versionLessB v w = true ↔ compareVersion v w = .lt := by
  unfold versionLessB
  cases compareVersion v w <;> decide

theorem versionEqualB_iff {v w : SemVersion} :
    versionEqualB v w = true ↔ compareVersion v w = .eq := by
  unfold versionEqualB
  cases compareVersion v w <;> decide

theorem versionGreaterB_iff {v w : SemVersion} :
    versionGreaterB v w = true ↔ compareVersion v w = .gt := by
  unfold versionGreaterB
  cases compareVersion v w <;> decide

/-- `firstDiff` only ever returns a genuinely differing pair. -/
theorem firstDiff_ne : ∀ (xs ys : List Int) (x y : Int), firstDiff xs ys = some (x, y) → x ≠ y := by
  intro xs
  induction xs with
  | nil =>
    intro ys x y h
    cases ys <;> simp [firstDiff] at h
  | cons a at2 ih =>
    intro ys x y h
    cases ys with
    | nil => simp [firstDiff] at h
    | cons b bt =>
      by_cases hab : a = b
      · rw [firstDiff, if_neg (by simp [hab])] at h
        exact ih bt x y h
      · rw [firstDiff, if_pos hab] at h
        cases h
        exact hab

/-- The boolean comparator handed to `sort.Slice` decides exactly the
`lt` outcomes of the three-way comparator. -/
theorem fileLess_iff_lt {a b : File} : fileLess a b = true ↔ fileCmp a b = .lt := by
  unfold fileLess fileCmp
  rw [lexCmpO_cmpOf_spec]
  cases hd : firstDiff a.Priority b.Priority with
  | some xy =>
    rcases xy with ⟨x, y⟩
    have hne : x ≠ y := firstDiff_ne _ _ _ _ hd
    simp only
    rcases h : cmpOf x y with _ | _ | _
    · simp [cmpOf_eq_lt.1 h, Ordering.then]
    · exact absurd (cmpOf_eq_eq.1 h) hne
    · simp [Ordering.then, not_lt_of_gt (cmpOf_eq_gt.1 h)]
  | none =>
    simp only
    by_cases hl : a.Priority.length = b.Priority.length
    · rw [cmpOf_eq_eq.2 hl, if_neg (by simp [hl])]
      show _ ↔ (compareVersion a.Version b.Version).then (cmpOf a.Name b.Name) = .lt
      rcases hcv : compareVersion a.Version b.Version with _ | _ | _
      · rw [if_pos (by simp [versionEqualB_iff, hcv])]
        simp [versionLessB_iff, hcv, Ordering.then]
      · rw [if_neg (by simp [versionEqualB_iff, hcv])]
        show decide (a.Name < b.Name) = true ↔ Ordering.eq.then (cmpOf a.Name b.Name) = .lt
        rw [show Ordering.eq.then (cmpOf a.Name b.Name) = cmpOf a.Name b.Name from rfl,
          cmpOf_eq_lt]
        simp
      · rw [if_pos (by simp [versionEqualB_iff, hcv])]
        simp [versionLessB_iff, hcv, Ordering.then]
    · rw [if_pos hl]
      rcases h : cmpOf a.Priority.length b.Priority.length with _ | _ | _
      · simp [cmpOf_eq_lt.1 h, Ordering.then]
      · exact absurd (cmpOf_eq_eq.1 h) hl
      · simp [Ordering.then, not_lt_of_gt (cmpOf_eq_gt.1 h)]

/-- Negative form of the comparator agreement, oriented the way the
sortedness statement uses it. -/
theorem fileLess_false_iff {a b : File} : fileLess b a = false ↔ fileCmp a b ≠ .gt := by
  constructor
  · intro h hgt
    have : fileCmp b a = .lt := by
      have := oc_symm fileCmp a b
      rw [hgt] at this
      exact this.symm
    have := fileLess_iff_lt.2 this
    rw [h] at this
    exact Bool.noConfusion this
  · intro h
    by_contra hne
    have : fileLess b a = true := by
      cases hfl : fileLess b a
      · exact absurd hfl hne
      · rfl
    have hlt := fileLess_iff_lt.1 this
    have := oc_symm fileCmp b a
    rw [hlt] at this
    exact h this.symm

/-- `sortFiles` returns a permutation of its input. -/
theorem sortFiles_perm (l : List File) : (sortFiles l).Perm l :=
  List.perm_insertionSort _ l

/-- `sortFiles` output is pairwise ordered by the source comparator. -/
theorem sortFiles_pairwise (l : List File) :
    (sortFiles l).Pairwise (fun a b => fileLess b a = false) := by
  haveI : IsTotal File (fun a b => fileLess b a = false) := by
    constructor
    intro a b
    rw [fileLess_false_iff, fileLess_false_iff]
    rcases h : fileCmp a b with _ | _ | _
    · exact Or.inl (by simp [h])
    · exact Or.inl (by simp [h])
    · refine Or.inr ?_
      have := oc_symm fileCmp a b
      rw [h] at this
      rw [← this]
      simp [Ordering.swap]
  haveI : IsTrans File (fun a b => fileLess b a = false) := by
    constructor
    intro a b c h1 h2
    rw [fileLess_false_iff] at h1 h2 ⊢
    exact Batteries.TransCmp.le_trans h1 h2
  exact List.sorted_insertionSort _ l

/-- A pair accepted by the comparator's non-strict order satisfies the
composite order the specification describes. -/
theorem fileLe_composite {a b : File} (h : fileLess b a = false) : fileCompositeLe a b := by
  rw [fileLess_false_iff] at h
  unfold fileCmp at h
  unfold fileCompositeLe
  rcases hp : lexCmpO cmpOf a.Priority b.Priority with _ | _ | _
  · exact Or.inl ((lexCmpO_lt_iff_lex _ _).1 hp)
  · refine Or.inr ⟨(lexCmpO_eq_iff _ _).1 hp, ?_⟩
    rw [hp] at h
    replace h : (compareVersion a.Version b.Version).then (cmpOf a.Name b.Name) ≠ .gt := h
    rcases hv : compareVersion a.Version b.Version with _ | _ | _
    · exact Or.inl (versionLessB_iff.2 hv)
    · refine Or.inr ⟨versionEqualB_iff.2 hv, ?_⟩
      rw [hv] at h
      replace h : cmpOf a.Name b.Name ≠ .gt := h
      exact cmpOf_ne_gt.1 h
    · rw [hv] at h
      exact absurd rfl h
  · rw [hp] at h
    exact absurd rfl h

/-! ### Engine lemmas -/

theorem migrationExists_append_left {recs more : List Migration} {name scope : String}
    (h : migrationExists recs name scope = true) :
    migrationExists (recs ++ more) name scope = true := by
  unfold migrationExists at h ⊢
  rw [List.any_append, h, Bool.true_or]

/-- Forward application, on success, is exactly the pure plan: the
journal grows by the planned up-scripts in catalog order, the record
list grows by the planned bookkeeping rows, and afterwards every file at
or below the target has a record under its (name, scope). -/
theorem migrateUp_ok_spec (fs : GoFS) (execOk : String → Bool) (target : SemVersion) :
    ∀ (files : List File) (tx tx1 : DBState), migrateUp fs execOk target files tx = .ok tx1 →
      tx1.journal = tx.journal ++
        (upPlan fs target files tx.records).map (fun f => (fs.read f.UpPath).getD "") ∧
      tx1.records = tx.records ++ (upPlan fs target files tx.records).map (recordOf fs) ∧
      ∀ f ∈ files, versionGreaterB f.Version target = false →
        migrationExists tx1.records f.Name f.Scope = true := by
  intro files
  induction files with
  | nil =>
    intro tx tx1 h
    cases h
    simp [upPlan]
  | cons f rest ih =>
    intro tx tx1 h
    by_cases hgt : versionGreaterB f.Version target = true
    · rw [migrateUp, if_pos hgt] at h
      obtain ⟨hj, hr, hc⟩ := ih tx tx1 h
      refine ⟨by rw [hj, upPlan, if_pos hgt], by rw [hr, upPlan, if_pos hgt], ?_⟩
      intro g hg hgle
      rcases List.mem_cons.1 hg with rfl | hg2
      · rw [hgt] at hgle
        exact Bool.noConfusion hgle
      · exact hc g hg2 hgle
    · replace hgt : versionGreaterB f.Version target = false := by
        cases hv : versionGreaterB f.Version target
        · rfl
        · exact absurd hv hgt
      rw [migrateUp, if_neg (by simp [hgt])] at h
      by_cases hex : migrationExists tx.records f.Name f.Scope = true
      · rw [if_pos hex] at h
        obtain ⟨hj, hr, hc⟩ := ih tx tx1 h
        refine ⟨by rw [hj, upPlan, if_neg (by simp [hgt]), if_pos hex],
          by rw [hr, upPlan, if_neg (by simp [hgt]), if_pos hex], ?_⟩
        intro g hg hgle
        rcases List.mem_cons.1 hg with rfl | hg2
        · rw [hr]
          exact migrationExists_append_left hex
        · exact hc g hg2 hgle
      · rw [if_neg hex] at h
        cases hread : fs.read f.UpPath with
        | none =>
          rw [hread] at h
          exact absurd h (by simp)
        | some queryUp =>
          rw [hread] at h
          dsimp only at h
          by_cases hex2 : execOk queryUp = false
          · rw [if_pos hex2] at h
            exact absurd h (by simp)
          · replace hex2 : execOk queryUp = true := by
              cases he : execOk queryUp
              · exact absurd he hex2
              · rfl
            rw [if_neg (by simp [hex2])] at h
            have hrec : recordOf fs f =
                { Id := "", Name := f.Name, Version := renderVersion f.Version,
                  Major := f.Version.major, Minor := f.Version.minor,
                  Patch := f.Version.patch, Prerelease := f.Version.prerelease,
                  Scope := f.Scope, Up := queryUp, Down := (fs.read f.DownPath).getD "",
                  Checksum := createChecksum [queryUp, (fs.read f.DownPath).getD ""] } := by
              unfold recordOf
              rw [hread]
              rfl
            rw [← hrec] at h
            obtain ⟨hj, hr, hc⟩ := ih _ _ h
            dsimp only at hj hr
            have hplan : upPlan fs target (f :: rest) tx.records =
                f :: upPlan fs target rest (tx.records ++ [recordOf fs f]) := by
              rw [upPlan, if_neg (by simp [hgt]), if_neg hex]
            have hself : migrationExists (tx.records ++ [recordOf fs f]) f.Name f.Scope = true := by
              unfold migrationExists
              rw [List.any_append]
              refine Bool.or_eq_true_iff.2 (Or.inr ?_)
              simp [recordOf]
            refine ⟨?_, ?_, ?_⟩
            · rw [hj, hplan, List.map_cons, hread]
              simp [List.append_assoc]
            · rw [hr, hplan, List.map_cons]
              simp [List.append_assoc]
            · intro g hg hgle
              rcases List.mem_cons.1 hg with rfl | hg2
              · rw [hr]
                exact migrationExists_append_left hself
              · exact hc g hg2 hgle

/-- Forward application over a catalog in which every file is skipped
(above the target or already recorded) succeeds and changes nothing. -/
theorem migrateUp_noop (fs : GoFS) (execOk : String → Bool) (target : SemVersion) :
    ∀ (files : List File) (tx : DBState),
      (∀ f ∈ files, versionGreaterB f.Version target = true ∨
        migrationExists tx.records f.Name f.Scope = true) →
      migrateUp fs execOk target files tx = .ok tx := by
  intro files
  induction files with
  | nil => intro tx _; rfl
  | cons f rest ih =>
    intro tx hall
    rcases hall f (List.mem_cons_self f rest) with hgt | hex
    · rw [migrateUp, if_pos hgt]
      exact ih tx (fun g hg => hall g (List.mem_cons_of_mem f hg))
    · by_cases hgt : versionGreaterB f.Version target = true
      · rw [migrateUp, if_pos hgt]
        exact ih tx (fun g hg => hall g (List.mem_cons_of_mem f hg))
      · rw [migrateUp, if_neg hgt, if_pos hex]
        exact ih tx (fun g hg => hall g (List.mem_cons_of_mem f hg))

/-- Every planned file comes from the catalog and is at or below the
target version. -/
theorem upPlan_mem (fs : GoFS) (target : SemVersion) :
    ∀ (files : List File) (recs : List Migration) (f : File),
      f ∈ upPlan fs target files recs →
      f ∈ files ∧ versionGreaterB f.Version target = false := by
  intro files
  induction files with
  | nil => intro recs f h; simp [upPlan] at h
  | cons g rest ih =>
    intro recs f h
    rw [upPlan] at h
    by_cases hgt : versionGreaterB g.Version target = true
    · rw [if_pos hgt] at h
      obtain ⟨hm, hle⟩ := ih recs f h
      exact ⟨List.mem_cons_of_mem g hm, hle⟩
    · replace hgt : versionGreaterB g.Version target = false := by
        cases hv : versionGreaterB g.Version target
        · rfl
        · exact absurd hv hgt
      rw [if_neg (by simp [hgt])] at h
      by_cases hex : migrationExists recs g.Name g.Scope = true
      · rw [if_pos hex] at h
        obtain ⟨hm, hle⟩ := ih recs f h
        exact ⟨List.mem_cons_of_mem g hm, hle⟩
      · rw [if_neg hex] at h
        rcases List.mem_cons.1 h with rfl | h2
        · exact ⟨List.mem_cons_self f rest, hgt⟩
        · obtain ⟨hm, hle⟩ := ih _ f h2
          exact ⟨List.mem_cons_of_mem g hm, hle⟩

/-- With downgrade enabled, the per-file verification loop fails as soon
as some catalog file's down-script cannot be read (whatever error an
earlier file may raise first). -/
theorem verifyFiles_missingDown_isErr (fs : GoFS) (recs : List Migration) :
    ∀ (files : List File) (f : File), f ∈ files → fs.read f.DownPath = none →
      (verifyFiles fs true recs files).isErr = true := by
  intro files
  induction files with
  | nil => intro f h; simp at h
  | cons g rest ih =>
    intro f hf hdown
    rw [Vermig.verifyFiles]
    cases hg : fs.read g.DownPath with
    | none =>
      rw [if_pos ⟨rfl, rfl⟩]
      rfl
    | some downContent =>
      rw [if_neg (by simp)]
      dsimp only
      rcases List.mem_cons.1 hf with rfl | hf2
      · rw [hg] at hdown
        exact Option.noConfusion hdown
      · cases hu : fs.read g.UpPath with
        | none => rfl
        | some upContent =>
          dsimp only
          cases hlk : checksumMapLookup recs (g.Scope ++ "/" ++ g.Name) with
          | none => exact ih f hf2 hdown
          | some stored =>
            simp only [Option.getD_some]
            by_cases hsum : createChecksum [upContent, downContent] ≠ stored
            · rw [if_pos hsum]
              rfl
            · rw [if_neg hsum]
              exact ih f hf2 hdown

/-- The higher-version query only looks at the result of the SQL triple
filter: rows at or below the target's triple never change it. -/
theorem findHigher_append_le {recs new : List Migration} {v : SemVersion}
    (h : ∀ r ∈ new, tripleGTb r v = false) :
    findHigher (recs ++ new) v = findHigher recs v := by
  have hnil : List.filter (fun r => tripleGTb r v) new = [] := by
    refine List.filter_eq_nil_iff.2 ?_
    intro r hr
    rw [h r hr]
    exact Bool.false_ne_true
  unfold findHigher
  rw [List.filter_append, hnil, List.append_nil]

/-- The Go re-filter keeps every row whose version string parses to
something strictly above the target. -/
theorem refilterHigher_all (v : SemVersion) :
    ∀ rows : List Migration,
      (∀ r ∈ rows, ∃ rv, parseVersion r.Version = some rv ∧ versionGreaterB rv v = true) →
      refilterHigher v rows = .ok rows := by
  intro rows
  induction rows with
  | nil => intro _; rfl
  | cons r rest ih =>
    intro hall
    obtain ⟨rv, hparse, hgt⟩ := hall r (List.mem_cons_self r rest)
    rw [refilterHigher, hparse, ih (fun s hs => hall s (List.mem_cons_of_mem r hs))]
    dsimp only
    rw [if_pos hgt]

/-- A version whose numeric triple is strictly above another's is
strictly above it under full semver comparison, whatever the prerelease
labels are. -/
theorem tripleCmp_gt_imp_version_gt {v w : SemVersion} (h : tripleCmpV v w = .gt) :
    compareVersion v w = .gt := by
  unfold compareVersion
  rw [h]
  rfl

/-- The SQL triple filter on an inserted row agrees with the triple
comparison of the file's version against the target. -/
theorem tripleGTb_recordOf (fs : GoFS) (f : File) (v : SemVersion) :
    tripleGTb (recordOf fs f) v = (tripleCmpV f.Version v == .gt) := by
  rfl

/-- A file not above the target yields a row the SQL triple filter
rejects. -/
theorem recordOf_not_tripleGT {fs : GoFS} {f : File} {v : SemVersion}
    (h : versionGreaterB f.Version v = false) : tripleGTb (recordOf fs f) v = false := by
  rw [tripleGTb_recordOf]
  cases ht : tripleCmpV f.Version v with
  | gt =>
    have := tripleCmp_gt_imp_version_gt ht
    rw [versionGreaterB, this] at h
    exact absurd h (by decide)
  | lt => rfl
  | eq => rfl

/-- A consistent stored row passing the SQL triple filter parses to a
version strictly above the target. -/
theorem consistent_tripleGT_parse {r : Migration} {v : SemVersion}
    (hc : versionConsistent r = true) (ht : tripleGTb r v = true) :
    ∃ rv, parseVersion r.Version = some rv ∧ versionGreaterB rv v = true := by
  unfold versionConsistent at hc
  cases hparse : parseVersion r.Version with
  | none =>
    rw [hparse] at hc
    exact Bool.noConfusion hc
  | some rv =>
    rw [hparse] at hc
    simp only [Bool.and_eq_true, beq_iff_eq] at hc
    obtain ⟨⟨hmaj, hmin⟩, hpat⟩ := hc
    refine ⟨rv, rfl, ?_⟩
    have htriple : tripleCmpV rv v = .gt := by
      unfold tripleCmpV
      rw [hmaj, hmin, hpat]
      unfold tripleGTb at ht
      rcases hx : (cmpOf r.Major v.major).then
          ((cmpOf r.Minor v.minor).then (cmpOf r.Patch v.patch)) with _ | _ | _
      · rw [hx] at ht
        exact absurd ht (by decide)
      · rw [hx] at ht
        exact absurd ht (by decide)
      · rfl
    unfold versionGreaterB
    rw [tripleCmp_gt_imp_version_gt htriple]
    rfl

/-- The modelled SQL ordering returns a permutation of the filtered rows. -/
theorem sortRowsDesc_perm (l : List Migration) : (sortRowsDesc l).Perm l :=
  List.perm_insertionSort _ l

/-- The modelled SQL ordering is pairwise triple-descending. -/
theorem sortRowsDesc_pairwise (l : List Migration) :
    (sortRowsDesc l).Pairwise (fun a b => rowCmp b a ≠ .gt) := by
  haveI : IsTotal Migration (fun a b => rowCmp b a ≠ .gt) := by
    constructor
    intro a b
    by_cases h : rowCmp a b = .gt
    · refine Or.inl ?_
      have hsym := oc_symm rowCmp a b
      rw [h] at hsym
      rw [← hsym]
      decide
    · exact Or.inr h
  haveI : IsTrans Migration (fun a b => rowCmp b a ≠ .gt) := by
    constructor
    intro a b c h1 h2
    exact Batteries.TransCmp.le_trans h2 h1
  exact List.sorted_insertionSort _ l

/-! ## Claim theorems -/

/-- C9: the checksum is invariant under CRLF-to-LF conversion and
leading/trailing whitespace in either fragment — two up/down pairs that
agree after per-fragment normalization (CRLF to LF, then trim) hash to
the identical lowercase-hex digest. -/
theorem checksum_normalization_invariant (u d u2 d2 : String)
    (hu : normalizeFrag u = normalizeFrag u2) (hd : normalizeFrag d = normalizeFrag d2) :
    createChecksum [u, d] = createChecksum [u2, d2] := by
  unfold createChecksum
  simp only [List.foldl_cons, List.foldl_nil]
  rw [hu, hd]

/-- Witness for C9 at concrete fragments differing in line endings and
surrounding whitespace. -/
theorem checksum_normalization_invariant_witness :
    normalizeFrag "SELECT 1;\r\n" = normalizeFrag "  SELECT 1;\n" ∧
    normalizeFrag "DROP T;" = normalizeFrag " DROP T; " ∧
    createChecksum ["SELECT 1;\r\n", "DROP T;"] =
      createChecksum ["  SELECT 1;\n", " DROP T; "] :=
  ⟨by decide, by decide,
    checksum_normalization_invariant _ _ _ _ (by decide) (by decide)⟩

/-- C6: after catalog construction the file list is sorted by the
composite order — priority sequences element-wise ascending with a
shorter sequence before a longer one sharing its prefix, then parsed
version ascending, then name — stated as: a successful `collectFiles`
returns a pairwise composite-ordered permutation of the walked entries. -/
theorem catalog_sorted_composite (fs : GoFS) (fl : List File)
    (h : collectFiles fs = .ok fl) :
    fl.Pairwise fileCompositeLe ∧
      ∃ raw, collectFilesAux fs.entries [] = .ok raw ∧ fl.Perm raw := by
  unfold collectFiles at h
  cases haux : collectFilesAux fs.entries [] with
  | ok raw =>
    rw [haux] at h
    have hfl : fl = sortFiles raw := by
      cases h
      rfl
    subst hfl
    exact ⟨(sortFiles_pairwise raw).imp (fun hab => fileLe_composite hab),
      raw, rfl, sortFiles_perm raw⟩
  | err e =>
    rw [haux] at h
    exact Outcome.noConfusion h
  | crash =>
    rw [haux] at h
    exact Outcome.noConfusion h

/-- Witness for C6 on a tree whose walk order disagrees with the
composite order. -/
theorem catalog_sorted_composite_witness :
    ∃ fl, collectFiles fsC6W = .ok fl ∧ fl.Pairwise fileCompositeLe :=
  ⟨_, rfl, (catalog_sorted_composite fsC6W _ rfl).1⟩

/-- C4 counterexample: the stored release record at triple (1,0,0)
strictly exceeds the target `1.0.0-alpha` under semver order (a
prerelease orders before its release), yet the higher-migration query
returns nothing, because its SQL filter compares numeric triples only. -/
theorem find_higher_prerelease_counterexample :
    parseVersion rec100W.Version = some ⟨1, 0, 0, ""⟩ ∧
    versionGreaterB ⟨1, 0, 0, ""⟩ ⟨1, 0, 0, "alpha"⟩ = true ∧
    findHigher [rec100W] ⟨1, 0, 0, "alpha"⟩ = .ok [] := by
  refine ⟨by decide, by decide, ?_⟩
  decide

/-- C4 (amended): over records whose version strings agree with their
numeric triple columns, the higher-migration query returns exactly the
records whose (major, minor, patch) triple strictly exceeds the
target's triple — records exceeding the target only by prerelease are
not returned — ordered by triple descending. -/
theorem find_higher_triple_filter (recs : List Migration) (v : SemVersion)
    (hcons : ∀ r ∈ recs, tripleGTb r v = true → versionConsistent r = true) :
    findHigher recs v = .ok (sortRowsDesc (recs.filter (fun r => tripleGTb r v))) ∧
    (sortRowsDesc (recs.filter (fun r => tripleGTb r v))).Perm
      (recs.filter (fun r => tripleGTb r v)) ∧
    (sortRowsDesc (recs.filter (fun r => tripleGTb r v))).Pairwise
      (fun a b => rowCmp b a ≠ .gt) := by
  refine ⟨?_, sortRowsDesc_perm _, sortRowsDesc_pairwise _⟩
  unfold findHigher
  by_cases hemp : (sortRowsDesc (recs.filter (fun r => tripleGTb r v))).isEmpty = true
  · rw [if_pos hemp]
    rw [List.isEmpty_iff] at hemp
    rw [hemp]
  · rw [if_neg hemp]
    refine refilterHigher_all v _ ?_
    intro r hr
    have hrmem : r ∈ recs.filter (fun r => tripleGTb r v) :=
      (sortRowsDesc_perm _).subset hr
    obtain ⟨hrin, hrgt⟩ := List.mem_filter.1 hrmem
    exact consistent_tripleGT_parse (hcons r hrin hrgt) hrgt

/-- A malformed version string never parses: fewer than three
dot-separated fields before any dash, or a non-numeric field, yields
`none`. -/
theorem parse_malformed (s : String) (h : malformedVersion s = true) :
    parseVersion s = none := by
  unfold malformedVersion at h
  unfold parseVersion
  dsimp only at h ⊢
  by_cases hg : s.data.contains '-' = true ∧
      (if s.data.contains '-' then (⟨(s.data.dropWhile (fun c => c ≠ '-')).drop 1⟩ : String)
       else "") = ""
  · rw [if_pos hg]
  · rw [if_neg hg]
    rcases hsp : splitChar '.' (⟨s.data.takeWhile (fun c => c ≠ '-')⟩ : String)
      with _ | ⟨a, _ | ⟨b, _ | ⟨c, _ | ⟨d, tl⟩⟩⟩⟩
    · rfl
    · rfl
    · rfl
    · rw [hsp] at h
      dsimp only
      simp only [List.length_cons, List.length_nil, List.any_cons, List.any_nil,
        Bool.or_false] at h
      have h2 : (digitsVal? a.data).isSome = false ∨ (digitsVal? b.data).isSome = false ∨
          (digitsVal? c.data).isSome = false := by
        rcases Bool.or_eq_true_iff.1 h with h3 | h3
        · exact absurd (of_decide_eq_true h3) (by omega)
        · rcases Bool.or_eq_true_iff.1 h3 with h4 | h4
          · exact Or.inl (of_decide_eq_true h4)
          · rcases Bool.or_eq_true_iff.1 h4 with h5 | h5
            · exact Or.inr (Or.inl (of_decide_eq_true h5))
            · exact Or.inr (Or.inr (of_decide_eq_true h5))
      cases hda : digitsVal? a.data with
      | none => rfl
      | some x =>
        cases hdb : digitsVal? b.data with
        | none => rfl
        | some y =>
          cases hdc : digitsVal? c.data with
          | none => rfl
          | some z =>
            rcases h2 with h6 | h6 | h6
            · rw [hda] at h6
              exact Bool.noConfusion h6
            · rw [hdb] at h6
              exact Bool.noConfusion h6
            · rw [hdc] at h6
              exact Bool.noConfusion h6
    · rfl

/-- C8: every target string with fewer than three dot-separated numeric
fields (before any prerelease dash), or a non-numeric field among them,
fails version parsing, and `Migrate` on it returns the parse error with
the database untouched. -/
theorem migrate_malformed_target (s : String) (m : Model) (db : DBState)
    (h : malformedVersion s = true) :
    parseVersion s = none ∧ runMigrate m s db = (.err .parseTarget, db) := by
  have hp := parse_malformed s h
  refine ⟨hp, ?_⟩
  unfold runMigrate
  rw [hp]

/-- Witness for C8 at the two-field target string `1.2`. -/
theorem migrate_malformed_target_witness :
    parseVersion "1.2" = none ∧
    runMigrate mPairW "1.2" db0W = (.err .parseTarget, db0W) :=
  migrate_malformed_target "1.2" mPairW db0W (by decide)

/-- C7 counterexample: downgrade is enabled and the catalog file's
down-script is missing, yet integrity verification succeeds — and the
whole call succeeds — because the bookkeeping table is empty and
`verifyIntegrity` returns early on an empty record set. -/
theorem verify_missing_down_empty_counterexample :
    fsOneW.read fAW.DownPath = none ∧
    collectFiles fsOneW = .ok [fAW] ∧
    verifyIntegrity fsOneW true [] [fAW] = .ok () ∧
    (runMigrate mMissingDownW "1.0.0" db0W).1 = .ok () := by
  refine ⟨by decide, by decide, by decide, ?_⟩
  decide

/-- C7 (amended): with downgrade enabled, a catalog file whose
down-script cannot be read, and at least one stored record, integrity
verification fails, and the `Migrate` call aborts with an error, leaving
the state unchanged. -/
theorem verify_missing_down_fails (m : Model) (v : String) (db : DBState)
    (pv : SemVersion) (higher : List Migration) (files : List File) (f : File)
    (hdg : m.allowDowngrade = true)
    (hmem : f ∈ files) (hdown : m.gofs.read f.DownPath = none)
    (hrecs : db.records ≠ [])
    (hpv : parseVersion v = some pv)
    (hfh : findHigher db.records pv = .ok higher)
    (hcol : collectFiles m.gofs = .ok files) :
    (verifyIntegrity m.gofs m.allowDowngrade db.records files).isErr = true ∧
    (runMigrate m v db).1.isErr = true ∧ (runMigrate m v db).2 = db := by
  have hver : (verifyIntegrity m.gofs m.allowDowngrade db.records files).isErr = true := by
    unfold verifyIntegrity
    rw [if_neg (by simpa [List.isEmpty_iff] using hrecs), hdg]
    exact verifyFiles_missingDown_isErr m.gofs db.records files f hmem hdown
  obtain ⟨e, he⟩ : ∃ e, verifyIntegrity m.gofs m.allowDowngrade db.records files = .err e := by
    rcases hvv : verifyIntegrity m.gofs m.allowDowngrade db.records files with u | e | _
    · rw [hvv] at hver
      exact Bool.noConfusion hver
    · exact ⟨e, rfl⟩
    · rw [hvv] at hver
      exact Bool.noConfusion hver
  have hrm : runMigrate m v db = (.err e, db) := by
    unfold runMigrate
    rw [hpv]
    dsimp only
    rw [hfh]
    dsimp only
    rw [hcol]
    dsimp only
    rw [he]
  exact ⟨hver, by rw [hrm]; rfl, by rw [hrm]⟩

/-- Witness for C7 (amended): ghost record stored, down-script missing,
downgrade enabled. -/
theorem verify_missing_down_fails_witness :
    (verifyIntegrity mMissingDownW.gofs mMissingDownW.allowDowngrade dbGhostW.records
      [fAW]).isErr = true ∧
    (runMigrate mMissingDownW "1.0.0" dbGhostW).1.isErr = true ∧
    (runMigrate mMissingDownW "1.0.0" dbGhostW).2 = dbGhostW :=
  verify_missing_down_fails mMissingDownW "1.0.0" dbGhostW ⟨1, 0, 0, ""⟩ [ghostW] [fAW] fAW
    (by decide) (by decide) (by decide) (by decide) (by decide) (by decide) (by decide)

/-- The catalog walk panics once it reaches a file name without an
underscore, provided every earlier entry passes cleanly. -/
theorem collectFilesAux_crash (p : String) (post : List (String × Bool))
    (hne : p ≠ "") (hnd : strEndsWith (baseName p) "_down.sql" = false)
    (hnu : versionToken (baseName p) = none) :
    ∀ (pre : List (String × Bool)) (acc : List File),
      (∀ e ∈ pre, walkEntryCleanB e = true) →
      collectFilesAux (pre ++ (p, false) :: post) acc = .crash := by
  intro pre
  induction pre with
  | nil =>
    intro acc _
    rw [List.nil_append, collectFilesAux, if_neg (by simp [hne]), if_neg (by simp [hnd]),
      hnu]
  | cons e rest ih =>
    intro acc hclean
    have hce : walkEntryCleanB e = true := hclean e (List.mem_cons_self e rest)
    rcases e with ⟨q, d⟩
    rw [List.cons_append, collectFilesAux]
    by_cases hskip : q = "" ∨ d = true
    · rw [if_pos hskip]
      exact ih acc (fun x hx => hclean x (List.mem_cons_of_mem _ hx))
    · rw [if_neg hskip]
      by_cases hdq : strEndsWith (baseName q) "_down.sql" = true
      · rw [if_pos hdq]
        exact ih acc (fun x hx => hclean x (List.mem_cons_of_mem _ hx))
      · rw [if_neg hdq]
        cases htk : versionToken (baseName q) with
        | none =>
          exfalso
          unfold walkEntryCleanB at hce
          simp only [htk, Bool.or_eq_true, beq_iff_eq, decide_eq_true_eq, Bool.or_false] at hce
          rcases hce with (hq | hd) | hdown
          · exact hskip (Or.inl hq)
          · exact hskip (Or.inr hd)
          · exact hdq hdown
        | some raw =>
          dsimp only
          cases hpr : parseVersion raw with
          | none =>
            exfalso
            unfold walkEntryCleanB at hce
            simp only [htk, hpr, Bool.or_eq_true, beq_iff_eq, decide_eq_true_eq,
              Option.isSome_none, Bool.or_false] at hce
            rcases hce with (hq | hd) | hdown
            · exact hskip (Or.inl hq)
            · exact hskip (Or.inr hd)
            · exact hdq hdown
          | some pv =>
            exact ih _ (fun x hx => hclean x (List.mem_cons_of_mem _ hx))

/-- The version-candidate walk of `MigrateLatest` panics in the same
situation. -/
theorem latestWalkAux_crash (p : String) (post : List (String × Bool))
    (hne : p ≠ "") (hnd : strEndsWith (baseName p) "_down.sql" = false)
    (hnu : versionToken (baseName p) = none) :
    ∀ (pre : List (String × Bool)) (acc : List SemVersion),
      (∀ e ∈ pre, walkEntryCleanB e = true) →
      latestWalkAux (pre ++ (p, false) :: post) acc = .crash := by
  intro pre
  induction pre with
  | nil =>
    intro acc _
    rw [List.nil_append, latestWalkAux, if_neg (by simp [hne]), if_neg (by simp [hnd]),
      hnu]
  | cons e rest ih =>
    intro acc hclean
    have hce : walkEntryCleanB e = true := hclean e (List.mem_cons_self e rest)
    rcases e with ⟨q, d⟩
    rw [List.cons_append, latestWalkAux]
    by_cases hskip : q = "" ∨ d = true
    · rw [if_pos hskip]
      exact ih acc (fun x hx => hclean x (List.mem_cons_of_mem _ hx))
    · rw [if_neg hskip]
      by_cases hdq : strEndsWith (baseName q) "_down.sql" = true
      · rw [if_pos hdq]
        exact ih acc (fun x hx => hclean x (List.mem_cons_of_mem _ hx))
      · rw [if_neg hdq]
        cases htk : versionToken (baseName q) with
        | none =>
          exfalso
          unfold walkEntryCleanB at hce
          simp only [htk, Bool.or_eq_true, beq_iff_eq, decide_eq_true_eq, Bool.or_false] at hce
          rcases hce with (hq | hd) | hdown
          · exact hskip (Or.inl hq)
          · exact hskip (Or.inr hd)
          · exact hdq hdown
        | some raw =>
          dsimp only
          cases hpr : parseVersion raw with
          | none =>
            exfalso
            unfold walkEntryCleanB at hce
            simp only [htk, hpr, Bool.or_eq_true, beq_iff_eq, decide_eq_true_eq,
              Option.isSome_none, Bool.or_false] at hce
            rcases hce with (hq | hd) | hdown
            · exact hskip (Or.inl hq)
            · exact hskip (Or.inr hd)
            · exact hdq hdown
          | some pv =>
            exact ih _ (fun x hx => hclean x (List.mem_cons_of_mem _ hx))

/-- C10 counterexample: this tree contains a non-directory file whose
name has no underscore and is not a down-script, yet neither catalog
construction nor `MigrateLatest` panics — an earlier entry's version
parse failure aborts the walk with an error first. -/
theorem slice_panic_counterexample :
    ("plain.sql", false) ∈ fsC10W.entries ∧
    versionToken (baseName "plain.sql") = none ∧
    strEndsWith (baseName "plain.sql") "_down.sql" = false ∧
    collectFiles fsC10W = .err .parseCollect ∧
    migrateLatest mC10XW db0W = (.err .parseCollect, db0W) := by
  decide

/-- C10 (amended): if the walk reaches a non-directory file whose name
does not end in the down marker and holds no underscore — every earlier
entry being skipped or parsed cleanly — the version-token slice
`name[:strings.Index(name, "_")]` is out of bounds and both catalog
construction and `MigrateLatest` panic instead of returning an error. -/
theorem slice_panic_on_reached_file (m : Model) (db : DBState)
    (pre post : List (String × Bool)) (p : String)
    (hentries : m.gofs.entries = pre ++ (p, false) :: post)
    (hne : p ≠ "") (hnd : strEndsWith (baseName p) "_down.sql" = false)
    (hnu : versionToken (baseName p) = none)
    (hclean : ∀ e ∈ pre, walkEntryCleanB e = true) :
    collectFiles m.gofs = .crash ∧ migrateLatest m db = (.crash, db) := by
  constructor
  · unfold collectFiles
    rw [hentries, collectFilesAux_crash p post hne hnd hnu pre [] hclean]
  · unfold migrateLatest
    rw [hentries, latestWalkAux_crash p post hne hnd hnu pre [] hclean]

/-- Witness for C10 (amended): a clean entry precedes the panicking
file. -/
theorem slice_panic_on_reached_file_witness :
    collectFiles mC10WW.gofs = .crash ∧ migrateLatest mC10WW db0W = (.crash, db0W) :=
  slice_panic_on_reached_file mC10WW db0W [("1.0.0_ok_up.sql", false)] [] "plain.sql"
    rfl (by decide) (by decide) (by decide) (by decide)

/-- C1: forward application skips exactly the files whose version
exceeds the target and those whose (name, scope) is already recorded at
their turn, and processes every remaining file in catalog order through
the full catalog — on success the journal extends by exactly the planned
up-scripts in order, the record list by exactly the planned rows with
their computed checksums, and afterwards every catalog file at or below
the target has a record under its (name, scope). -/
theorem forward_application_plan (fs : GoFS) (execOk : String → Bool) (target : SemVersion)
    (files : List File) (tx tx1 : DBState)
    (h : migrateUp fs execOk target files tx = .ok tx1) :
    tx1.journal = tx.journal ++
      (upPlan fs target files tx.records).map (fun f => (fs.read f.UpPath).getD "") ∧
    tx1.records = tx.records ++ (upPlan fs target files tx.records).map (recordOf fs) ∧
    ∀ f ∈ files, versionGreaterB f.Version target = false →
      migrationExists tx1.records f.Name f.Scope = true :=
  migrateUp_ok_spec fs execOk target files tx tx1 h

/-- Witness for C1: a catalog holding one file above the target and one
below it, against an empty store. -/
theorem forward_application_plan_witness :
    dbAfterC1W.journal =
      db0W.journal ++ (upPlan fsTwoW ⟨1, 0, 0, ""⟩ [fBW, fAW] db0W.records).map
        (fun f => (fsTwoW.read f.UpPath).getD "") ∧
    dbAfterC1W.records =
      db0W.records ++ (upPlan fsTwoW ⟨1, 0, 0, ""⟩ [fBW, fAW] db0W.records).map
        (recordOf fsTwoW) ∧
    ∀ f ∈ [fBW, fAW], versionGreaterB f.Version ⟨1, 0, 0, ""⟩ = false →
      migrationExists dbAfterC1W.records f.Name f.Scope = true :=
  forward_application_plan fsTwoW execAllW ⟨1, 0, 0, ""⟩ [fBW, fAW] db0W dbAfterC1W (by rfl)

/-- C2: when forward application fails partway (for instance an
up-script execution error on the Nth eligible file), `Migrate` rolls the
transaction back: it returns the error and the observable database state
after the call equals the state before it — none of the batch's SQL or
bookkeeping rows is committed. -/
theorem up_failure_rolls_back (m : Model) (v : String) (db : DBState) (pv : SemVersion)
    (files : List File) (e : MigErr)
    (hpv : parseVersion v = some pv)
    (hfh : findHigher db.records pv = .ok [])
    (hcol : collectFiles m.gofs = .ok files)
    (hver : verifyIntegrity m.gofs m.allowDowngrade db.records files = .ok ())
    (hup : migrateUp m.gofs m.execOk pv files db = .err e) :
    runMigrate m v db = (.err e, db) := by
  unfold runMigrate
  rw [hpv]
  dsimp only
  rw [hfh]
  dsimp only
  rw [hcol]
  dsimp only
  rw [hver]
  dsimp only
  rw [if_neg (by simp), if_pos rfl, hup]

/-- Witness for C2: the only eligible file's up-script is rejected by
the database. -/
theorem up_failure_rolls_back_witness :
    runMigrate mExecFailW "1.0.0" db0W = (.err (.execFail "CREATE A"), db0W) :=
  up_failure_rolls_back mExecFailW "1.0.0" db0W ⟨1, 0, 0, ""⟩ [fAW] (.execFail "CREATE A")
    (by decide) (by decide) (by decide) (by decide) (by decide)

/-- C3 counterexample: higher-version records exist and downgrade is
disabled, yet `Migrate` does not return success — catalog collection
fails first (an unparsable version token), so the call errors. -/
theorem downgrade_disabled_counterexample :
    mBadVerW.allowDowngrade = false ∧
    parseVersion "1.0.0" = some ⟨1, 0, 0, ""⟩ ∧
    findHigher dbGhostW.records ⟨1, 0, 0, ""⟩ = .ok [ghostW] ∧
    runMigrate mBadVerW "1.0.0" dbGhostW = (.err .parseCollect, dbGhostW) := by
  decide

/-- C3 (amended): provided catalog collection and integrity verification
succeed, a call with higher-version records present and downgrade
disabled returns success and performs no mutation — no script runs, no
row is inserted or deleted, and the state is unchanged (only a warning
is logged). -/
theorem downgrade_disabled_noop (m : Model) (v : String) (db : DBState) (pv : SemVersion)
    (higher : List Migration) (files : List File)
    (hdg : m.allowDowngrade = false)
    (hpv : parseVersion v = some pv)
    (hfh : findHigher db.records pv = .ok higher)
    (hne : higher ≠ [])
    (hcol : collectFiles m.gofs = .ok files)
    (hver : verifyIntegrity m.gofs m.allowDowngrade db.records files = .ok ()) :
    runMigrate m v db = (.ok (), db) := by
  unfold runMigrate
  rw [hpv]
  dsimp only
  rw [hfh]
  dsimp only
  rw [hcol]
  dsimp only
  rw [hver]
  dsimp only
  rw [if_neg (by simp [hdg]), if_neg hne]

/-- Witness for C3 (amended): ghost record above the target, downgrade
disabled. -/
theorem downgrade_disabled_noop_witness :
    runMigrate mNoDowngradeW "1.0.0" dbGhostW = (.ok (), dbGhostW) :=
  downgrade_disabled_noop mNoDowngradeW "1.0.0" dbGhostW ⟨1, 0, 0, ""⟩ [ghostW] [fAW]
    (by decide) (by decide) (by decide) (by decide) (by decide) (by decide)

/-- C5 counterexample: a first successful `Migrate(1.0.0)` that took the
downgrade path (a higher record existed) leaves the 1.0.0 file
unapplied, so a second `Migrate(1.0.0)` over the unchanged migration set
executes a script and inserts a bookkeeping row — `Migrate` at a fixed
target is not idempotent in general. -/
theorem idempotence_counterexample :
    runMigrate mPairDowngradeW "1.0.0" dbGhostW = (.ok (), dbMidC5X) ∧
    (runMigrate mPairDowngradeW "1.0.0" dbMidC5X).1 = .ok () ∧
    (runMigrate mPairDowngradeW "1.0.0" dbMidC5X).2.journal = ["DROP G", "CREATE A"] ∧
    dbMidC5X.journal = ["DROP G"] ∧
    (runMigrate mPairDowngradeW "1.0.0" dbMidC5X).2.records.length = 1 ∧
    dbMidC5X.records.length = 0 := by
  refine ⟨by decide, by decide, by decide, by decide, by decide, by decide⟩

/-- C5 (amended): when the first successful `Migrate(V)` found no
records above the target (it took the forward path), a second
`Migrate(V)` over the unchanged migration set leaves the state exactly
as the first call left it — no script executes (the journal is
unchanged) and no bookkeeping row is inserted (the record list is
unchanged), whatever the second call's outcome. -/
theorem migrate_idempotent_forward (m : Model) (v : String) (pv : SemVersion)
    (db0 db1 : DBState)
    (hpv : parseVersion v = some pv)
    (hfh : findHigher db0.records pv = .ok [])
    (hrun : runMigrate m v db0 = (.ok (), db1)) :
    (runMigrate m v db1).2 = db1 := by
  unfold runMigrate at hrun
  rw [hpv] at hrun
  dsimp only at hrun
  rw [hfh] at hrun
  dsimp only at hrun
  rcases hcol : collectFiles m.gofs with files | e | _
  · rw [hcol] at hrun
    dsimp only at hrun
    rcases hver : verifyIntegrity m.gofs m.allowDowngrade db0.records files with u | e | _
    · rw [hver] at hrun
      dsimp only at hrun
      rw [if_neg (by simp), if_pos rfl] at hrun
      rcases hstep : migrateUp m.gofs m.execOk pv files db0 with tx | e | _
      · rw [hstep] at hrun
        dsimp only at hrun
        have htx : tx = db1 := congrArg Prod.snd hrun
        subst htx
        obtain ⟨hj, hr, hcomp⟩ := migrateUp_ok_spec m.gofs m.execOk pv files db0 tx hstep
        have hnew : ∀ r ∈ (upPlan m.gofs pv files db0.records).map (recordOf m.gofs),
            tripleGTb r pv = false := by
          intro r hrm
          obtain ⟨f, hfplan, rfl⟩ := List.mem_map.1 hrm
          exact recordOf_not_tripleGT (upPlan_mem m.gofs pv files db0.records f hfplan).2
        have hfh1 : findHigher tx.records pv = .ok [] := by
          rw [hr, findHigher_append_le hnew]
          exact hfh
        have hnoop : migrateUp m.gofs m.execOk pv files tx = .ok tx := by
          refine migrateUp_noop m.gofs m.execOk pv files tx ?_
          intro f hf
          cases hgt : versionGreaterB f.Version pv with
          | true => exact Or.inl rfl
          | false => exact Or.inr (hcomp f hf hgt)
        unfold runMigrate
        rw [hpv]
        dsimp only
        rw [hfh1]
        dsimp only
        rw [hcol]
        dsimp only
        rcases hver1 : verifyIntegrity m.gofs m.allowDowngrade tx.records files with u | e | _
        · dsimp only
          rw [if_neg (by simp), if_pos rfl, hnoop]
        · rfl
        · rfl
      · rw [hstep] at hrun
        dsimp only at hrun
        simp at hrun
      · rw [hstep] at hrun
        dsimp only at hrun
        simp at hrun
    · rw [hver] at hrun
      dsimp only at hrun
      simp at hrun
    · rw [hver] at hrun
      dsimp only at hrun
      simp at hrun
  · rw [hcol] at hrun
    dsimp only at hrun
    simp at hrun
  · rw [hcol] at hrun
    dsimp only at hrun
    simp at hrun

/-- Witness for C5 (amended): the forward path applies the only file,
and the second call leaves the resulting state untouched. -/
theorem migrate_idempotent_forward_witness :
    (runMigrate mPairW "1.0.0" ((runMigrate mPairW "1.0.0" db0W).2)).2 =
      (runMigrate mPairW "1.0.0" db0W).2 :=
  migrate_idempotent_forward mPairW "1.0.0" ⟨1, 0, 0, ""⟩ db0W
    ((runMigrate mPairW "1.0.0" db0W).2) (by decide) (by decide)
    (Prod.ext (by decide) rfl)

/-- Witness for C4 (amended) at a concrete consistent store. -/
theorem find_higher_triple_filter_witness :
    findHigher [recC4aW, recC4bW, recC4cW] ⟨1, 0, 0, ""⟩ =
      .ok (sortRowsDesc ([recC4aW, recC4bW, recC4cW].filter
        (fun r => tripleGTb r ⟨1, 0, 0, ""⟩))) ∧
    (sortRowsDesc ([recC4aW, recC4bW, recC4cW].filter
      (fun r => tripleGTb r ⟨1, 0, 0, ""⟩))).Perm
        ([recC4aW, recC4bW, recC4cW].filter (fun r => tripleGTb r ⟨1, 0, 0, ""⟩)) ∧
    (sortRowsDesc ([recC4aW, recC4bW, recC4cW].filter
      (fun r => tripleGTb r ⟨1, 0, 0, ""⟩))).Pairwise (fun a b => rowCmp b a ≠ .gt) :=
  find_higher_triple_filter [recC4aW, recC4bW, recC4cW] ⟨1, 0, 0, ""⟩ (by decide)

end Vermig

